import Mathlib

/-!
# snarkVM — verification of spec claims against a shallow embedding

This file embeds, in Lean 4, the parts of the snarkVM sources that the
spec claims C1..C10 are about:

* `CircuitInfo::get_degree_bounds` (algorithms/src/snark/varuna/ahp/indexer/circuit_info.rs),
* `Process::verify_execution`'s verifier-input construction and per-circuit
  grouping (synthesizer/src/process/execute.rs),
* `VM::check_transactions` / `VM::check_transaction` (synthesizer/src/vm/verify.rs),
* `VerifyingKey` text encoding (synthesizer/snark/src/verifying_key/parse.rs),
  together with the bech32m encoding it relies on (the `bech32` crate),
* `PedersenCommitmentParameters::{write_le, read_le}`
  (algorithms/src/commitment/pedersen_parameters.rs),
* the universal-SRS specialization contract exercised by `check_indexing`
  (algorithms/src/snark/varuna/tests.rs).

Machine integers are modelled as `Nat` with explicit `% 2^w` where overflow
matters.  Fallible Rust code returns `Option` (with `none` also standing for
a Rust panic, noted at each definition where that reading is used).
-/

/-! ## Shared little-endian byte utilities

Rust's `u32::write_le` / `u64::write_le` (snarkvm_utilities) write the
integer as exactly `w` little-endian bytes; `read_le` reads them back.
`leBytesOfNat w n` encodes `n % 2^(8*w)`; this matches the Rust cast-then-write
behaviour (`len as u32` truncates). -/

def leBytesOfNat : Nat → Nat → List Nat
  | 0, _ => []
  | w + 1, n => (n % 256) :: leBytesOfNat w (n / 256)

def natOfLeBytes : List Nat → Nat
  | [] => 0
  | b :: bs => b + 256 * natOfLeBytes bs

theorem leBytesOfNat_length (w n : Nat) : (leBytesOfNat w n).length = w := by
  induction w generalizing n with
  | zero => rfl
  | succ k ih => simp [leBytesOfNat, ih]

theorem natOfLeBytes_leBytesOfNat (w n : Nat) :
    natOfLeBytes (leBytesOfNat w n) = n % 2 ^ (8 * w) := by
  induction w generalizing n with
  | zero => simp [leBytesOfNat, natOfLeBytes, Nat.mod_one]
  | succ k ih =>
    simp only [leBytesOfNat, natOfLeBytes, ih]
    have h256 : (256 : Nat) = 2 ^ 8 := by norm_num
    have hpow : 2 ^ (8 * (k + 1)) = 2 ^ 8 * 2 ^ (8 * k) := by
      rw [← pow_add]; ring_nf
    rw [hpow, h256, Nat.mod_mul]

theorem natOfLeBytes_leBytesOfNat_of_lt {w n : Nat} (h : n < 2 ^ (8 * w)) :
    natOfLeBytes (leBytesOfNat w n) = n := by
  rw [natOfLeBytes_leBytesOfNat, Nat.mod_eq_of_lt h]

/-- Reading exactly `k` bytes off the front of a stream, as a Rust
`Read`-style consumer: returns the bytes and the remaining stream, or
`none` if the stream is too short. -/
def readBytes (k : Nat) (s : List Nat) : Option (List Nat × List Nat) :=
  if k ≤ s.length then some (s.take k, s.drop k) else none

theorem readBytes_append (bs rest : List Nat) :
    readBytes bs.length (bs ++ rest) = some (bs, rest) := by
  simp [readBytes, List.take_append, List.drop_append]

/-! ## C4 / C5 — `CircuitInfo::get_degree_bounds`

Source: algorithms/src/snark/varuna/ahp/indexer/circuit_info.rs, lines 27-66.
`EvaluationDomain::<F>::compute_size_of_domain` (the `fft` module) is not
under `src/`, so it is modelled from the spec. -/

structure CircuitInfo where
  num_public_inputs : Nat
  num_variables : Nat
  num_constraints : Nat
  num_non_zero_a : Nat
  num_non_zero_b : Nat
  num_non_zero_c : Nat
  deriving Repr, DecidableEq

/-- Smallest power of two that is `≥ n` (with `nextPow2 0 = 1`).  Written
with an explicit fuel argument so that it is structurally recursive; the
accumulator doubles each step, so fuel `n` always suffices. -/
def nextPow2.go : Nat → Nat → Nat → Nat
  | 0, _, acc => acc
  | fuel + 1, n, acc => if n ≤ acc then acc else nextPow2.go fuel n (2 * acc)

def nextPow2 (n : Nat) : Nat := nextPow2.go n n 1

theorem nextPow2.go_isPow2 (fuel n k : Nat) :
    ∃ j, nextPow2.go fuel n (2 ^ k) = 2 ^ j := by
  induction fuel generalizing k with
  | zero => exact ⟨k, rfl⟩
  | succ f ih =>
    by_cases h : n ≤ 2 ^ k
    · exact ⟨k, by simp [nextPow2.go, h]⟩
    · have := ih (k + 1)
      simpa [nextPow2.go, h, pow_succ, Nat.mul_comm] using this

theorem nextPow2.go_ge (fuel n acc : Nat) (hacc : 1 ≤ acc) (hf : n ≤ acc * 2 ^ fuel) :
    n ≤ nextPow2.go fuel n acc := by
  induction fuel generalizing acc with
  | zero => simpa [nextPow2.go] using hf
  | succ f ih =>
    by_cases h : n ≤ acc
    · simp only [nextPow2.go, h, if_true]
    · have : n ≤ 2 * acc * 2 ^ f := by
        rw [pow_succ] at hf; nlinarith
      simpa [nextPow2.go, h] using ih (2 * acc) (by omega) this

theorem le_nextPow2 (n : Nat) : n ≤ nextPow2 n := by
  have h : n ≤ 1 * 2 ^ n := by
    rw [one_mul]; exact (Nat.lt_two_pow n).le
  exact nextPow2.go_ge n n 1 (by omega) h

theorem nextPow2_isPow2 (n : Nat) : ∃ j, nextPow2 n = 2 ^ j := by
  have h := nextPow2.go_isPow2 n n 0
  rw [pow_zero] at h
  exact h

theorem nextPow2.go_min (fuel n k m : Nat) (hm : n ≤ 2 ^ m) (hk : k ≤ m) :
    nextPow2.go fuel n (2 ^ k) ≤ 2 ^ m := by
  induction fuel generalizing k with
  | zero => exact Nat.pow_le_pow_right (by omega) hk
  | succ f ih =>
    by_cases h : n ≤ 2 ^ k
    · simp only [nextPow2.go, h, if_true]
      exact Nat.pow_le_pow_right (by omega) hk
    · have hkm : k < m := by
        by_contra hc
        have : k = m := by omega
        subst this; omega
      have h2 : (2 : Nat) * 2 ^ k = 2 ^ (k + 1) := by rw [pow_succ]; ring
      simp only [nextPow2.go, h, if_false, h2]
      exact ih (k + 1) hkm

/-- `nextPow2 n` is minimal: it is at most any power of two that is `≥ n`. -/
theorem nextPow2_min (n m : Nat) (hm : n ≤ 2 ^ m) : nextPow2 n ≤ 2 ^ m := by
  have := nextPow2.go_min n n 0 m hm (by omega)
  simpa [nextPow2] using this

/-- Modelled from the spec: `EvaluationDomain::<F>::compute_size_of_domain`
(the `fft` module is not under `src/`).  Spec §3/§8: `domain_size(n)` is the
smallest power of two `≥ n`; §4.2/§7: the computation fails if the required
domain size exceeds the field's supported power-of-two domain, i.e. `2 ^
twoAdicity`.  The field's 2-adicity is kept as a parameter `twoAdicity`. -/
def compute_size_of_domain (twoAdicity n : Nat) : Option Nat :=
  if nextPow2 n ≤ 2 ^ twoAdicity then some (nextPow2 n) else none

/-- Rust `usize` subtraction in release mode wraps modulo `2^64`; `a - 2` in
`get_degree_bounds` is modelled as wrapping subtraction on 64-bit values. -/
def usizeSub (a b : Nat) : Nat := (a + 2 ^ 64 - b % 2 ^ 64) % 2 ^ 64

theorem usizeSub_eq_sub {a b : Nat} (hb : b ≤ a) (ha : a < 2 ^ 64) :
    usizeSub a b = a - b := by
  have hb64 : b < 2 ^ 64 := lt_of_le_of_lt hb ha
  unfold usizeSub
  rw [Nat.mod_eq_of_lt hb64]
  have h1 : a + 2 ^ 64 - b = (a - b) + 2 ^ 64 := by omega
  rw [h1, Nat.add_mod_right, Nat.mod_eq_of_lt (by omega)]

/-- `CircuitInfo::get_degree_bounds` (circuit_info.rs lines 50-65), with the
four `compute_size_of_domain(..).unwrap() - 2` entries in source order
(`num_variables`, `num_non_zero_a`, `num_non_zero_b`, `num_non_zero_c`).
The source calls `.unwrap()` on each `compute_size_of_domain` result, so a
`None` there is a Rust panic; the panic is modelled as `none`. -/
def get_degree_bounds (twoAdicity : Nat) (c : CircuitInfo) : Option (List Nat) := do
  let d1 ← compute_size_of_domain twoAdicity c.num_variables
  let d2 ← compute_size_of_domain twoAdicity c.num_non_zero_a
  let d3 ← compute_size_of_domain twoAdicity c.num_non_zero_b
  let d4 ← compute_size_of_domain twoAdicity c.num_non_zero_c
  pure [usizeSub d1 2, usizeSub d2 2, usizeSub d3 2, usizeSub d4 2]

/-- A second definition, following the spec's words for C5 (§4.2:
"`get_degree_bounds()` ... fails with `DomainTooLarge` if the required
domain size exceeds the field's supported power-of-two domain"), to be
compared with the embedding of the source: it returns a typed error
instead of panicking. -/
def get_degree_bounds_specModel (twoAdicity : Nat) (c : CircuitInfo) :
    Except String (List Nat) :=
  match get_degree_bounds twoAdicity c with
  | some bounds => .ok bounds
  | none => .error "DomainTooLarge"

theorem get_degree_bounds_eq_of_some (twoAdicity : Nat) (c : CircuitInfo)
    (d1 d2 d3 d4 : Nat)
    (h1 : compute_size_of_domain twoAdicity c.num_variables = some d1)
    (h2 : compute_size_of_domain twoAdicity c.num_non_zero_a = some d2)
    (h3 : compute_size_of_domain twoAdicity c.num_non_zero_b = some d3)
    (h4 : compute_size_of_domain twoAdicity c.num_non_zero_c = some d4) :
    get_degree_bounds twoAdicity c =
      some [usizeSub d1 2, usizeSub d2 2, usizeSub d3 2, usizeSub d4 2] := by
  simp [get_degree_bounds, h1, h2, h3, h4]

theorem compute_size_of_domain_lt (twoAdicity n d : Nat)
    (h : compute_size_of_domain twoAdicity n = some d) (ha : twoAdicity < 64) :
    d < 2 ^ 64 := by
  unfold compute_size_of_domain at h
  split at h
  · cases h
    calc nextPow2 n ≤ 2 ^ twoAdicity := by assumption
    _ < 2 ^ 64 := Nat.pow_lt_pow_right (by omega) ha
  · cases h

theorem get_degree_bounds_none_of_domainTooLarge (twoAdicity : Nat) (c : CircuitInfo)
    (h : 2 ^ twoAdicity < nextPow2 c.num_variables ∨
         2 ^ twoAdicity < nextPow2 c.num_non_zero_a ∨
         2 ^ twoAdicity < nextPow2 c.num_non_zero_b ∨
         2 ^ twoAdicity < nextPow2 c.num_non_zero_c) :
    get_degree_bounds twoAdicity c = none := by
  unfold get_degree_bounds compute_size_of_domain
  rcases h with h | h | h | h <;>
    simp [Nat.not_le.mpr h, Option.bind] <;>
    (try split) <;> (try split) <;> (try split) <;> simp_all [Option.bind]

/-- Claim C4: for every `CircuitInfo` whose four required domain sizes are
computable (so `get_degree_bounds` returns rather than panicking) and are at
least `2` (no `usize` underflow), `get_degree_bounds` returns exactly
`[domain_size(num_variables) - 2, domain_size(num_non_zero_a) - 2,
domain_size(num_non_zero_b) - 2, domain_size(num_non_zero_c) - 2]` in that
order, where `domain_size(n) = nextPow2 n` is the smallest power of two
`≥ n` (by `le_nextPow2`, `nextPow2_isPow2`, `nextPow2_min`). -/
theorem c4_get_degree_bounds_values (twoAdicity : Nat) (c : CircuitInfo)
    (ha : twoAdicity < 64)
    (h1 : nextPow2 c.num_variables ≤ 2 ^ twoAdicity)
    (h2 : nextPow2 c.num_non_zero_a ≤ 2 ^ twoAdicity)
    (h3 : nextPow2 c.num_non_zero_b ≤ 2 ^ twoAdicity)
    (h4 : nextPow2 c.num_non_zero_c ≤ 2 ^ twoAdicity)
    (g1 : 2 ≤ nextPow2 c.num_variables)
    (g2 : 2 ≤ nextPow2 c.num_non_zero_a)
    (g3 : 2 ≤ nextPow2 c.num_non_zero_b)
    (g4 : 2 ≤ nextPow2 c.num_non_zero_c) :
    get_degree_bounds twoAdicity c =
      some [nextPow2 c.num_variables - 2,
            nextPow2 c.num_non_zero_a - 2,
            nextPow2 c.num_non_zero_b - 2,
            nextPow2 c.num_non_zero_c - 2] := by
  have e1 : compute_size_of_domain twoAdicity c.num_variables = some (nextPow2 c.num_variables) := by
    simp [compute_size_of_domain, h1]
  have e2 : compute_size_of_domain twoAdicity c.num_non_zero_a = some (nextPow2 c.num_non_zero_a) := by
    simp [compute_size_of_domain, h2]
  have e3 : compute_size_of_domain twoAdicity c.num_non_zero_b = some (nextPow2 c.num_non_zero_b) := by
    simp [compute_size_of_domain, h3]
  have e4 : compute_size_of_domain twoAdicity c.num_non_zero_c = some (nextPow2 c.num_non_zero_c) := by
    simp [compute_size_of_domain, h4]
  rw [get_degree_bounds_eq_of_some twoAdicity c _ _ _ _ e1 e2 e3 e4]
  have p : 2 ^ twoAdicity < 2 ^ 64 := Nat.pow_lt_pow_right (by omega) ha
  rw [usizeSub_eq_sub g1 (by omega), usizeSub_eq_sub g2 (by omega),
      usizeSub_eq_sub g3 (by omega), usizeSub_eq_sub g4 (by omega)]

/-- Witness for C4 at a concrete circuit shape (`num_variables = 25`,
`num_non_zero = 100/90/80`, two-adicity 47): the smallest power of two `≥ 25`
is `32`, etc., yielding bounds `[30, 126, 126, 126]`. -/
theorem c4_get_degree_bounds_values_witness :
    get_degree_bounds 47
      { num_public_inputs := 1, num_variables := 25, num_constraints := 25,
        num_non_zero_a := 100, num_non_zero_b := 90, num_non_zero_c := 80 } =
      some [30, 126, 126, 126] := by
  have h := c4_get_degree_bounds_values 47
    { num_public_inputs := 1, num_variables := 25, num_constraints := 25,
      num_non_zero_a := 100, num_non_zero_b := 90, num_non_zero_c := 80 }
    (by decide) (by decide) (by decide) (by decide) (by decide)
    (by decide) (by decide) (by decide) (by decide)
  simpa using h

/-- Claim C5, refuted: at a `CircuitInfo` whose required domain size for
`num_variables` exceeds the field's power-of-two capability (two-adicity 47,
`num_variables = 2^47 + 1`), the source `get_degree_bounds` panics — the
embedded computation hits the `.unwrap()` `None` (modelled `none`) — while
the spec's stated behaviour (`get_degree_bounds_specModel`) is a
`DomainTooLarge` error.  So the source does not "fail with a DomainTooLarge
error rather than panicking". -/
theorem c5_counterexample :
    get_degree_bounds 47
      { num_public_inputs := 1, num_variables := 2 ^ 47 + 1, num_constraints := 1,
        num_non_zero_a := 1, num_non_zero_b := 1, num_non_zero_c := 1 } = none ∧
    get_degree_bounds_specModel 47
      { num_public_inputs := 1, num_variables := 2 ^ 47 + 1, num_constraints := 1,
        num_non_zero_a := 1, num_non_zero_b := 1, num_non_zero_c := 1 } =
      .error "DomainTooLarge" := by
  have hlarge : 2 ^ 47 < nextPow2 (2 ^ 47 + 1) :=
    lt_of_lt_of_le (by omega) (le_nextPow2 (2 ^ 47 + 1))
  have h := get_degree_bounds_none_of_domainTooLarge 47
    { num_public_inputs := 1, num_variables := 2 ^ 47 + 1, num_constraints := 1,
      num_non_zero_a := 1, num_non_zero_b := 1, num_non_zero_c := 1 }
    (Or.inl hlarge)
  exact ⟨h, by unfold get_degree_bounds_specModel; rw [h]⟩

/-- Claim C5 as amended: when the required power-of-two domain size for
`num_variables` (or any of the three non-zero counts) exceeds the field's
supported power-of-two domain, `get_degree_bounds` panics — the `.unwrap()`
on `compute_size_of_domain`'s `None` (modelled: the computation yields
`none`) — instead of returning a `DomainTooLarge` error. -/
theorem c5_get_degree_bounds_panics_on_large_domain (twoAdicity : Nat) (c : CircuitInfo)
    (h : 2 ^ twoAdicity < nextPow2 c.num_variables ∨
         2 ^ twoAdicity < nextPow2 c.num_non_zero_a ∨
         2 ^ twoAdicity < nextPow2 c.num_non_zero_b ∨
         2 ^ twoAdicity < nextPow2 c.num_non_zero_c) :
    get_degree_bounds twoAdicity c = none :=
  get_degree_bounds_none_of_domainTooLarge twoAdicity c h

/-- Witness for the amended C5 at two-adicity 2 and `num_non_zero_b = 9`
(domain size 16 > 4). -/
theorem c5_get_degree_bounds_panics_on_large_domain_witness :
    get_degree_bounds 2
      { num_public_inputs := 1, num_variables := 4, num_constraints := 4,
        num_non_zero_a := 4, num_non_zero_b := 9, num_non_zero_c := 4 } = none := by
  exact c5_get_degree_bounds_panics_on_large_domain 2 _ (by right; right; left; decide)

/-! ## Transition / transaction data model

Used by C1, C2, C3, C9.  Field elements are abstract values, modelled as
`Nat`.  A transition (console/ledger `Transition<N>`, not under `src/`)
carries exactly the per-transition data that
`Process::verify_execution` reads: `tpk` coordinates, `tcm`, inputs and
outputs with their `verifier_inputs()` field-element contributions,
`output_ids`, and the optional finalize inputs (kept as their
little-endian bit encodings, which is all `verify_execution` uses). -/

structure InputM where
  verifierInputs : List Nat
  deriving Repr, DecidableEq

structure OutputM where
  verifierInputs : List Nat
  deriving Repr, DecidableEq

structure TransitionM where
  programId : Nat
  functionName : Nat
  tpkX : Nat
  tpkY : Nat
  tcm : Nat
  inputs : List InputM
  outputs : List OutputM
  outputIds : List Nat
  finalize : Option (List (List Bool))
  deriving Repr, DecidableEq

/-- `Transaction<N>` (ledger_block, not under `src/`): the three variants
matched in `VM::check_transaction` (vm/verify.rs lines 162-215), with the
data the claims need. -/
inductive TransactionM
  | deploy (body : Nat)
  | execute (transitions : List TransitionM) (proof : Nat)
  | fee (body : Nat)
  deriving Repr, DecidableEq

def TransactionM.is_deploy : TransactionM → Bool
  | .deploy _ => true
  | _ => false

/-! ## C2 — `VM::check_transaction` on a mutated execution

Source: synthesizer/src/vm/verify.rs lines 69-226.  Every check in
`check_transaction` — well-formedness/size, transaction-ID, uniqueness of
transition IDs / input IDs / serial numbers / tags / output IDs /
commitments / nonces / tpks / tcms, the fee check, and the deployment and
execution verification (`check_execution_internal`, which calls
`Process::verify_execution`) — sits behind
`#[cfg(not(feature = "test_skip_tx_checks"))]`.  With that feature enabled
the function body reduces to `Ok(())`.  With the feature disabled the
function does not compile: the gated code references bindings that do not
exist in that configuration (`buffer` vs. the declared `_buffer`,
`rejected_id` vs. the parameter `_rejected_id`, `rng` vs. `_rng`, and
`id`/`owner`/`deployment`/`execution` vs. the match binders
`_id`/`_owner`/`_deployment`/`_execution`).  The embedding below is the
one configuration that compiles. -/

def checkTransaction : TransactionM → Except String Unit :=
  fun _ => .ok ()

/-- `Output::ExternalRecord(Field::zero())` as appended by
`test_check_mutated_execution` (vm/verify.rs line 703): a zero-valued
field-element output. -/
def addedZeroOutput : OutputM := ⟨[0]⟩

/-- The mutation performed by `test_check_mutated_execution` (vm/verify.rs
lines 692-722): keep the proof and all other transition data, and append
one extra zero-valued output to the (single) transition's output list. -/
def mutateExecutionTransaction : TransactionM → TransactionM
  | .execute (t :: ts) proof =>
      .execute ({ t with outputs := t.outputs ++ [addedZeroOutput] } :: ts) proof
  | tx => tx

/-- A concrete single-transition execution transaction, standing for the
valid sampled transaction of `test_check_mutated_execution`. -/
def sampleExecutionTransaction : TransactionM :=
  .execute
    [{ programId := 1, functionName := 2, tpkX := 3, tpkY := 4, tcm := 5,
       inputs := [⟨[6]⟩], outputs := [⟨[7]⟩], outputIds := [7],
       finalize := none }]
    9

/-- Claim C2, evaluated against the code: `VM::check_transaction` (in the
only configuration of vm/verify.rs that compiles, the
`test_skip_tx_checks` feature) accepts *every* transaction — in
particular the post-proving output-mutated execution transaction that the
claim (and the repository's own `test_check_mutated_execution`, which
asserts `is_err()`) requires it to reject.  The second conjunct checks
that the mutation really changes the transaction. -/
theorem c2_checkTransaction_accepts_mutated_execution :
    (∀ tx : TransactionM, checkTransaction (mutateExecutionTransaction tx) = .ok ()) ∧
    mutateExecutionTransaction sampleExecutionTransaction ≠ sampleExecutionTransaction := by
  refine ⟨fun _ => rfl, ?_⟩
  decide

/-! ## C1 — the public-input vector built by `Process::verify_execution`

Source: synthesizer/src/process/execute.rs lines 132-198.  The function
and stack objects (`stack.get_function`, `call.is_function_call`,
`N::hash_bhp1024`) live outside `src/`; a function is therefore modelled by
the two facts `verify_execution` extracts from it — how many of its
instructions are function calls (lines 144-153) and its finalize scope's
operand/input counts (lines 170-184) — and the BHP hash is an arbitrary
function parameter `hash`. -/

structure FunctionM where
  /-- The number of `Instruction::Call`s in the function that are function
  calls (execute.rs lines 145-153). -/
  numFunctionCalls : Nat
  /-- `some (command.operands().len(), logic.inputs().len())` when the
  function has a finalize scope (execute.rs lines 170-177). -/
  finalizeScope : Option (Nat × Nat)
  deriving Repr, DecidableEq

/-- The external-call section (execute.rs lines 154-164): for the last
`n` transitions still in the queue, taken in definition order
(`queue.transitions().rev().take(n).rev()`), the input verifier elements
followed by the output IDs of each. -/
def extCallSection (queueRest : List TransitionM) (n : Nat) : List Nat :=
  ((queueRest.reverse.take n).reverse).flatMap fun tr =>
    tr.inputs.flatMap InputM.verifierInputs ++ tr.outputIds

/-- The verifier public-input vector `Process::verify_execution` builds for
one transition (execute.rs lines 132-196), mirroring the imperative pushes:
`vec![one, tpk_x, tpk_y, tcm]`, extend with the transition's input
verifier elements, extend with the external-call section when the function
makes function calls, extend with the transition's output verifier
elements, and push the finalize checksum under the finalize-scope checks
(`none` models the `bail!`s of lines 180-194). -/
def transitionVerifierInputs (hash : List Bool → Nat) (maxInputs : Nat)
    (func : FunctionM) (t : TransitionM) (queueRest : List TransitionM) :
    Option (List Nat) :=
  let inputs1 := [1, t.tpkX, t.tpkY, t.tcm] ++ t.inputs.flatMap InputM.verifierInputs
  let inputs2 := inputs1 ++
    (if 0 < func.numFunctionCalls then extCallSection queueRest func.numFunctionCalls else [])
  let inputs3 := inputs2 ++ t.outputs.flatMap OutputM.verifierInputs
  match func.finalizeScope with
  | none => some inputs3
  | some (numOperands, numInputsF) =>
    match t.finalize with
    | none => none
    | some fin =>
      if fin.length ≤ maxInputs ∧ fin.length = numOperands ∧ fin.length = numInputsF then
        some (inputs3 ++ [hash fin.flatten])
      else none

/-- The vector shape asserted by claim C1 (and spec §6): leading one, the
two `tpk` coordinates, `tcm`, the transition's own input verifier
elements, its own output verifier elements, and — only with a finalize
scope — the finalize checksum last.  (No external-call section.) -/
def claimedVerifierInputs (hash : List Bool → Nat) (func : FunctionM)
    (t : TransitionM) : List Nat :=
  [1, t.tpkX, t.tpkY, t.tcm] ++ t.inputs.flatMap InputM.verifierInputs ++
    t.outputs.flatMap OutputM.verifierInputs ++
    (if func.finalizeScope.isSome then [hash (t.finalize.getD []).flatten] else [])

def c1Hash : List Bool → Nat := fun _ => 0

def c1Func : FunctionM := { numFunctionCalls := 1, finalizeScope := none }

def c1T : TransitionM :=
  { programId := 1, functionName := 2, tpkX := 3, tpkY := 4, tcm := 5,
    inputs := [⟨[10]⟩], outputs := [⟨[20]⟩], outputIds := [20],
    finalize := none }

def c1TExt : TransitionM :=
  { programId := 6, functionName := 7, tpkX := 8, tpkY := 9, tcm := 11,
    inputs := [⟨[30]⟩], outputs := [⟨[40]⟩], outputIds := [40],
    finalize := none }

/-- Claim C1, refuted: for a transition of a function that makes one
nested function call, the vector `verify_execution` hands to the SNARK
verifier contains the external call's input verifier elements and output
IDs (`30, 40`) between the transition's own input elements and its own
output elements, so it is not the claimed
`[one, tpk_x, tpk_y, tcm] ++ inputs ++ outputs` shape. -/
theorem c1_counterexample :
    transitionVerifierInputs c1Hash 16 c1Func c1T [c1TExt] =
      some [1, 3, 4, 5, 10, 30, 40, 20] ∧
    claimedVerifierInputs c1Hash c1Func c1T = [1, 3, 4, 5, 10, 20] ∧
    some [1, 3, 4, 5, 10, 30, 40, 20] ≠ some [1, 3, 4, 5, 10, 20] := by
  refine ⟨by decide, by decide, by decide⟩

/-- Claim C1 as amended: the vector is built in exactly this fixed order —
a leading one, the `tpk` coordinates, `tcm`, the transition's input
verifier elements, then (for functions making nested function calls) the
input verifier elements and output IDs of the corresponding external
transitions, then the transition's output verifier elements, and — only
with a finalize scope — the finalize-input checksum appended last.  When
the function makes no function calls this coincides with the claimed
shape. -/
theorem c1_verifier_input_order (hash : List Bool → Nat) (maxInputs : Nat)
    (func : FunctionM) (t : TransitionM) (queueRest : List TransitionM)
    (v : List Nat)
    (h : transitionVerifierInputs hash maxInputs func t queueRest = some v) :
    v = [1, t.tpkX, t.tpkY, t.tcm] ++ t.inputs.flatMap InputM.verifierInputs ++
        (if 0 < func.numFunctionCalls then extCallSection queueRest func.numFunctionCalls
         else []) ++
        t.outputs.flatMap OutputM.verifierInputs ++
        (if func.finalizeScope.isSome then [hash (t.finalize.getD []).flatten] else []) ∧
      (func.numFunctionCalls = 0 → v = claimedVerifierInputs hash func t) := by
  have main : v = [1, t.tpkX, t.tpkY, t.tcm] ++ t.inputs.flatMap InputM.verifierInputs ++
      (if 0 < func.numFunctionCalls then extCallSection queueRest func.numFunctionCalls
       else []) ++
      t.outputs.flatMap OutputM.verifierInputs ++
      (if func.finalizeScope.isSome then [hash (t.finalize.getD []).flatten] else []) := by
    rcases hfs : func.finalizeScope with _ | ⟨numOperands, numInputsF⟩
    · simp only [transitionVerifierInputs, hfs, Option.some_inj] at h
      subst h
      simp [List.append_assoc]
    · rcases hfin : t.finalize with _ | fin
      · simp only [transitionVerifierInputs, hfs, hfin] at h; cases h
      · simp only [transitionVerifierInputs, hfs, hfin] at h
        by_cases hc : fin.length ≤ maxInputs ∧ fin.length = numOperands ∧
            fin.length = numInputsF
        · rw [if_pos hc] at h
          simp only [Option.some_inj] at h
          subst h
          simp [List.append_assoc]
        · rw [if_neg hc] at h; cases h
  refine ⟨main, fun hzero => ?_⟩
  rw [main, claimedVerifierInputs]
  simp [hzero, List.append_assoc]

def c1HashW : List Bool → Nat := fun _ => 99

def c1FuncW : FunctionM := { numFunctionCalls := 0, finalizeScope := some (1, 1) }

def c1TW : TransitionM :=
  { programId := 1, functionName := 2, tpkX := 3, tpkY := 4, tcm := 5,
    inputs := [⟨[10]⟩], outputs := [⟨[20]⟩], outputIds := [20],
    finalize := some [[true]] }

/-- Witness for the amended C1: at a call-free function with a finalize
scope, the constructed vector is the claimed shape with the checksum
last. -/
theorem c1_verifier_input_order_witness :
    transitionVerifierInputs c1HashW 16 c1FuncW c1TW [] =
      some (claimedVerifierInputs c1HashW c1FuncW c1TW) := by
  have h : transitionVerifierInputs c1HashW 16 c1FuncW c1TW [] =
      some [1, 3, 4, 5, 10, 20, 99] := by decide
  have h2 := (c1_verifier_input_order c1HashW 16 c1FuncW c1TW [] _ h).2 rfl
  rw [h, h2]

/-! ## C3 — per-circuit grouping of verifier inputs

Source: synthesizer/src/process/execute.rs lines 56-229, including the
up-front gate of lines 63-74 (`get_number_of_calls(main) == execution.len()`,
where the main transition is `execution.peek()`, the last one).  The map
`verifier_inputs` is a `std::collections::HashMap` keyed by
`Locator::new(program_id, function_name)`; `or_insert` creates a group on
the key's first occurrence and later occurrences append
(`.1.push(inputs)`).  `verifier_inputs.values().cloned().collect()` then
emits the groups in the `HashMap`'s iteration order, which is unspecified
and seed-dependent (`RandomState`); it is modelled by an `oracle` — an
arbitrary permutation of the grouped entries, one oracle per run. -/

/-- A locator `(program_id, function_name)`. -/
def LocatorM := Nat × Nat
deriving instance DecidableEq, Repr for LocatorM

/-- `verifier_inputs.entry(locator).or_insert((vk, vec![])).1.push(inputs)`
on the map contents, kept as an association list in first-insertion
order. -/
def insertGroup : List (LocatorM × List (List Nat)) → LocatorM → List Nat →
    List (LocatorM × List (List Nat))
  | [], key, v => [(key, [v])]
  | (k, vs) :: rest, key, v =>
      if k = key then (k, vs ++ [v]) :: rest else (k, vs) :: insertGroup rest key v

/-- The `while let Ok(transition) = queue.pop()` loop of
`verify_execution` (execute.rs lines 87-213), restricted to what it
contributes to `verifier_inputs`.  `queue.pop()` removes the *last*
transition, so the loop walks the execution back to front; the argument
here is the already-reversed queue (head = next pop), and
`restRev.reverse` is the queue the external-call section reads. -/
def collectVerifierInputs.go (hash : List Bool → Nat) (maxInputs : Nat)
    (getFunction : LocatorM → FunctionM) :
    List TransitionM → List (LocatorM × List (List Nat)) →
    Option (List (LocatorM × List (List Nat)))
  | [], acc => some acc
  | t :: restRev, acc =>
    match transitionVerifierInputs hash maxInputs
        (getFunction (t.programId, t.functionName)) t restRev.reverse with
    | none => none
    | some v =>
        collectVerifierInputs.go hash maxInputs getFunction restRev
          (insertGroup acc (t.programId, t.functionName) v)

def collectVerifierInputs (hash : List Bool → Nat) (maxInputs : Nat)
    (getFunction : LocatorM → FunctionM) (exec : List TransitionM) :
    Option (List (LocatorM × List (List Nat))) :=
  collectVerifierInputs.go hash maxInputs getFunction exec.reverse []

/-- The prelude and grouping loop of `Process::verify_execution`
(execute.rs lines 60-213): `ensure!(!execution.is_empty())`, then the
number-of-transitions gate of lines 63-74 — `execution.peek()` is the
*last* transition (the main function; `pop` also removes the last), and
`stack.get_number_of_calls(main.function_name())` must equal
`execution.len()` — and only then the grouping loop.
`Stack::get_number_of_calls` is not under `src/`; modelled from the
spec: it returns the total number of transitions the function's call
tree produces (one for the function itself plus the counts of its
function-call callees), kept abstract as the parameter
`getNumberOfCalls`.  Both failed `ensure!`s are `none`. -/
def verifyExecutionGroups (hash : List Bool → Nat) (maxInputs : Nat)
    (getFunction : LocatorM → FunctionM) (getNumberOfCalls : LocatorM → Nat)
    (exec : List TransitionM) : Option (List (LocatorM × List (List Nat))) :=
  match exec.getLast? with
  | none => none
  | some mainT =>
    if getNumberOfCalls (mainT.programId, mainT.functionName) = exec.length then
      collectVerifierInputs hash maxInputs getFunction exec
    else none

/-- `verifier_inputs.values().cloned().collect()` (execute.rs line 221):
the grouped entries in the `HashMap`'s run-dependent iteration order,
modelled by the permutation `oracle`, on top of the gated
`verifyExecutionGroups`. -/
def verifierInputsOut
    (oracle : List (LocatorM × List (List Nat)) → List (LocatorM × List (List Nat)))
    (hash : List Bool → Nat) (maxInputs : Nat) (getFunction : LocatorM → FunctionM)
    (getNumberOfCalls : LocatorM → Nat)
    (exec : List TransitionM) : Option (List (LocatorM × List (List Nat))) :=
  (verifyExecutionGroups hash maxInputs getFunction getNumberOfCalls exec).map oracle

/-- The total number of verifier-input instances held by a group list
(what `verify_execution` recounts at execute.rs lines 215-218). -/
def sumInstances (m : List (LocatorM × List (List Nat))) : Nat :=
  (m.map fun g => g.2.length).sum

theorem sumInstances_insertGroup (m : List (LocatorM × List (List Nat)))
    (key : LocatorM) (v : List Nat) :
    sumInstances (insertGroup m key v) = sumInstances m + 1 := by
  induction m with
  | nil => simp [insertGroup, sumInstances]
  | cons g rest ih =>
    obtain ⟨k, vs⟩ := g
    by_cases hk : k = key
    · simp [insertGroup, hk, sumInstances]
      omega
    · simp only [insertGroup, hk, if_false, sumInstances, List.map_cons, List.sum_cons]
      have := ih
      simp only [sumInstances] at this
      omega

theorem collectVerifierInputs.go_sum (hash : List Bool → Nat) (maxInputs : Nat)
    (getFunction : LocatorM → FunctionM) :
    ∀ (restRev : List TransitionM) (acc : List (LocatorM × List (List Nat)))
      (out : List (LocatorM × List (List Nat))),
      collectVerifierInputs.go hash maxInputs getFunction restRev acc = some out →
      sumInstances out = sumInstances acc + restRev.length := by
  intro restRev
  induction restRev with
  | nil =>
    intro acc out h
    simp only [collectVerifierInputs.go, Option.some_inj] at h
    subst h; simp
  | cons t rest ih =>
    intro acc out h
    simp only [collectVerifierInputs.go] at h
    rcases hv : transitionVerifierInputs hash maxInputs
        (getFunction (t.programId, t.functionName)) t rest.reverse with _ | v
    · rw [hv] at h; cases h
    · rw [hv] at h
      have := ih (insertGroup acc (t.programId, t.functionName) v) out h
      rw [this, sumInstances_insertGroup]
      simp only [List.length_cons]
      omega

def c3Hash : List Bool → Nat := fun _ => 0

/-- The main function `(2, 2)` makes one function call (to `(1, 1)`);
the child `(1, 1)` makes none; neither has a finalize scope. -/
def c3GetFunction : LocatorM → FunctionM :=
  fun loc => if loc = (2, 2) then ⟨1, none⟩ else ⟨0, none⟩

/-- `Stack::get_number_of_calls`, consistent with `c3GetFunction`'s call
structure: the child `(1, 1)` produces one transition, the main `(2, 2)`
produces `1 + 1 = 2` (itself plus its one function-call callee). -/
def c3GetNumberOfCalls : LocatorM → Nat :=
  fun loc => if loc = (2, 2) then 2 else 1

/-- The child transition: the nested call, first in the execution. -/
def c3TChild : TransitionM :=
  { programId := 1, functionName := 1, tpkX := 3, tpkY := 4, tcm := 5,
    inputs := [⟨[100]⟩], outputs := [], outputIds := [], finalize := none }

/-- The main transition: last in the execution (`execution.peek()`). -/
def c3TMain : TransitionM :=
  { programId := 2, functionName := 2, tpkX := 8, tpkY := 9, tcm := 11,
    inputs := [⟨[200]⟩], outputs := [], outputIds := [], finalize := none }

/-- Claim C3, refuted: `verify_execution` holds the per-circuit groups in
a `std::collections::HashMap` and emits them in its unspecified,
seed-dependent iteration order.  The concrete execution
`[c3TChild, c3TMain]` is one the code accepts past the up-front gate of
execute.rs lines 63-74: its main function `(2, 2)` has
`get_number_of_calls = 2`, the execution length.  Modelling one run's
iteration order as a permutation oracle: the identity and reversal
oracles are both permutations (first conjunct), under the identity
oracle the two groups come out in insertion order `(2,2), (1,1)` — the
main function first, not the ascending canonical circuit-identifier
order (third conjunct) — and the two oracles (two runs) emit the groups
in different orders (fourth conjunct). -/
theorem c3_counterexample :
    (∀ l : List (LocatorM × List (List Nat)), (List.reverse l).Perm l) ∧
    (verifierInputsOut id c3Hash 16 c3GetFunction c3GetNumberOfCalls
        [c3TChild, c3TMain]).map (List.map Prod.fst) = some [(2, 2), (1, 1)] ∧
    ¬ List.Sorted (fun a b : LocatorM => a.1 ≤ b.1) [((2, 2) : LocatorM), (1, 1)] ∧
    verifierInputsOut List.reverse c3Hash 16 c3GetFunction c3GetNumberOfCalls
        [c3TChild, c3TMain] ≠
      verifierInputsOut id c3Hash 16 c3GetFunction c3GetNumberOfCalls
        [c3TChild, c3TMain] := by
  refine ⟨fun l => List.reverse_perm l, by decide, ?_, by decide⟩
  intro hs
  have := (List.pairwise_cons.mp hs).1 (1, 1) (by simp)
  omega

/-- Claim C3 as amended: `verify_execution` groups the verifier-input
vectors per locator (`HashMap` keyed by `(program_id, function_name)`,
instances appended in processing order), and what reaches the batch
verifier is *some permutation* of those groups — the `HashMap`'s
unspecified iteration order, not necessarily the sorted canonical
circuit-identifier order and not necessarily the same across two runs;
the total instance count always equals the number of transitions (the
`num_instances` check of execute.rs lines 215-218).  The canonical
ordering is reconstructed downstream (inside the Varuna batch verifier),
not here. -/
theorem c3_grouping_is_permutation (hash : List Bool → Nat) (maxInputs : Nat)
    (getFunction : LocatorM → FunctionM) (getNumberOfCalls : LocatorM → Nat)
    (exec : List TransitionM)
    (oracle : List (LocatorM × List (List Nat)) → List (LocatorM × List (List Nat)))
    (hperm : ∀ l, (oracle l).Perm l)
    (groups out : List (LocatorM × List (List Nat)))
    (hc : verifyExecutionGroups hash maxInputs getFunction getNumberOfCalls exec =
      some groups)
    (ho : verifierInputsOut oracle hash maxInputs getFunction getNumberOfCalls exec =
      some out) :
    out.Perm groups ∧ sumInstances out = exec.length := by
  have hcol : collectVerifierInputs hash maxInputs getFunction exec = some groups := by
    unfold verifyExecutionGroups at hc
    split at hc
    · cases hc
    · split at hc
      · exact hc
      · cases hc
  have hout : out = oracle groups := by
    unfold verifierInputsOut at ho
    rw [hc] at ho
    simp only [Option.map_some'] at ho
    exact (Option.some_inj.mp ho).symm
  subst hout
  refine ⟨hperm groups, ?_⟩
  have hsum : sumInstances groups = exec.length := by
    have := collectVerifierInputs.go_sum hash maxInputs getFunction exec.reverse [] groups hcol
    simpa [sumInstances] using this
  calc sumInstances (oracle groups)
      = sumInstances groups := by
        unfold sumInstances
        exact ((hperm groups).map fun g => g.2.length).sum_eq
    _ = exec.length := hsum

/-- Witness for the amended C3 at the concrete execution
`[c3TChild, c3TMain]` (which passes the number-of-calls gate) and the
identity oracle. -/
theorem c3_grouping_is_permutation_witness :
    List.Perm
      [(((2 : Nat), (2 : Nat)), [[1, 8, 9, 11, 200, 100]]),
        (((1 : Nat), (1 : Nat)), [[1, 3, 4, 5, 100]])]
      [(((2 : Nat), (2 : Nat)), [[1, 8, 9, 11, 200, 100]]),
        (((1 : Nat), (1 : Nat)), [[1, 3, 4, 5, 100]])] ∧
    sumInstances
      [(((2 : Nat), (2 : Nat)), [[1, 8, 9, 11, 200, 100]]),
        (((1 : Nat), (1 : Nat)), [[1, 3, 4, 5, 100]])] =
      ([c3TChild, c3TMain] : List TransitionM).length := by
  exact c3_grouping_is_permutation c3Hash 16 c3GetFunction c3GetNumberOfCalls
    [c3TChild, c3TMain] id (fun l => List.Perm.refl l) _ _ (by decide) (by decide)

/-! ## C9 — `VM::check_transactions` batching

Source: synthesizer/src/vm/verify.rs lines 34-63. -/

/-- vm/verify.rs line 36. -/
def MAX_PARALLEL_DEPLOY_VERIFICATIONS : Nat := 5

/-- vm/verify.rs line 38. -/
def MAX_PARALLEL_EXECUTE_VERIFICATIONS : Nat := 1000

/-- Rust `slice::chunks(n)`: successive chunks of `n` elements, the last
chunk possibly shorter.  Written with fuel (the list length suffices) for
structural recursion.  Rust panics on `n = 0`; both call sites here use the
positive constants 5 and 1000. -/
def rustChunks.go : Nat → Nat → List α → List (List α)
  | 0, _, _ => []
  | _ + 1, _, [] => []
  | fuel + 1, n, x :: xs =>
      (x :: xs).take n :: rustChunks.go fuel n ((x :: xs).drop n)

def rustChunks (n : Nat) (l : List α) : List (List α) :=
  rustChunks.go l.length n l

theorem rustChunks.go_length_le (n : Nat) (c : List α) (fuel : Nat) :
    ∀ l : List α, c ∈ rustChunks.go fuel n l → c.length ≤ n := by
  induction fuel with
  | zero => intro l h; simp [rustChunks.go] at h
  | succ f ih =>
    intro l h
    cases l with
    | nil => simp [rustChunks.go] at h
    | cons x xs =>
      simp only [rustChunks.go, List.mem_cons] at h
      rcases h with h | h
      · subst h; simp [List.length_take_le]
      · exact ih _ h

/-- Every chunk produced by `rustChunks n` has at most `n` elements. -/
theorem rustChunks_length_le {n : Nat} {l : List α} {c : List α}
    (h : c ∈ rustChunks n l) : c.length ≤ n :=
  rustChunks.go_length_le n c l.length l h

theorem rustChunks.go_flatten (n : Nat) (hn : 0 < n) (fuel : Nat) :
    ∀ l : List α, l.length ≤ fuel → (rustChunks.go fuel n l).flatten = l := by
  induction fuel with
  | zero =>
    intro l hl
    have : l = [] := List.length_eq_zero.mp (by omega)
    subst this; rfl
  | succ f ih =>
    intro l hl
    cases l with
    | nil => rfl
    | cons x xs =>
      simp only [rustChunks.go, List.flatten_cons]
      have hd : ((x :: xs).drop n).length ≤ f := by
        simp only [List.length_drop, List.length_cons]
        simp only [List.length_cons] at hl
        omega
      rw [ih _ hd, List.take_append_drop]

/-- The chunks of `rustChunks n l` concatenate back to exactly `l`. -/
theorem rustChunks_flatten (n : Nat) (hn : 0 < n) (l : List α) :
    (rustChunks n l).flatten = l :=
  rustChunks.go_flatten n hn l.length l le_rfl

/-- `VM::check_transactions` (vm/verify.rs lines 41-63), reduced to the
batching structure the claim is about: the partition of the incoming list
into deployments (`is_deploy`) and the rest, chunked by the two constants,
deployment chunks first (the `chain`). -/
def check_transactions_batches (txs : List TransactionM) : List (List TransactionM) :=
  let parts := txs.partition TransactionM.is_deploy
  rustChunks MAX_PARALLEL_DEPLOY_VERIFICATIONS parts.1 ++
    rustChunks MAX_PARALLEL_EXECUTE_VERIFICATIONS parts.2

/-- Claim C9: `check_transactions` splits any transaction list into the
deployment sublist and the non-deployment (execution) sublist, verifies
them in chunks, the deployment cap (5) is strictly smaller than the
execution cap (1000), no batch exceeds its cap, and the batches cover
exactly the partitioned transactions. -/
theorem c9_check_transactions_batching (txs : List TransactionM) :
    check_transactions_batches txs =
      rustChunks MAX_PARALLEL_DEPLOY_VERIFICATIONS (txs.filter TransactionM.is_deploy) ++
        rustChunks MAX_PARALLEL_EXECUTE_VERIFICATIONS
          (txs.filter fun tx => !tx.is_deploy) ∧
    (∀ b ∈ rustChunks MAX_PARALLEL_DEPLOY_VERIFICATIONS (txs.filter TransactionM.is_deploy),
        b.length ≤ MAX_PARALLEL_DEPLOY_VERIFICATIONS) ∧
    (∀ b ∈ rustChunks MAX_PARALLEL_EXECUTE_VERIFICATIONS (txs.filter fun tx => !tx.is_deploy),
        b.length ≤ MAX_PARALLEL_EXECUTE_VERIFICATIONS) ∧
    MAX_PARALLEL_DEPLOY_VERIFICATIONS < MAX_PARALLEL_EXECUTE_VERIFICATIONS ∧
    (check_transactions_batches txs).flatten =
      txs.filter TransactionM.is_deploy ++ txs.filter fun tx => !tx.is_deploy := by
  have hpart : txs.partition TransactionM.is_deploy =
      (txs.filter TransactionM.is_deploy, txs.filter fun tx => !tx.is_deploy) :=
    List.partition_eq_filter_filter TransactionM.is_deploy txs
  refine ⟨?_, fun b hb => rustChunks_length_le hb, fun b hb => rustChunks_length_le hb,
    by decide, ?_⟩
  · rw [check_transactions_batches, hpart]
  · rw [check_transactions_batches, hpart]
    simp only [List.flatten_append]
    rw [rustChunks_flatten MAX_PARALLEL_DEPLOY_VERIFICATIONS (by decide),
      rustChunks_flatten MAX_PARALLEL_EXECUTE_VERIFICATIONS (by decide)]

/-! ## C8 — SRS extension does not change specialized keys

The universal SRS, `download_powers_for` and `circuit_setup` are not under
`src/` (only the test `check_indexing`, algorithms/src/snark/varuna/tests.rs
lines 511-545, is); they are modelled from the spec: §3 "UniversalSRS:
ordered table of setup powers up to some degree; append-only", §4.3
"`download_powers_for(range)`: extends the power table for `range`,
append-only", "`to_universal_prover(..)`: restricts/selects exactly the SRS
elements needed", "Fails with `SetupError` if `max_degree` exceeds what the
SRS currently holds". -/

/-- Modelled from the spec: the universal SRS is the ordered, append-only
table of setup powers (abstract group elements, modelled as `Nat`). -/
structure UniversalSRSM where
  powers : List Nat
  deriving Repr, DecidableEq

/-- Modelled from the spec: `download_powers_for` appends the newly
downloaded powers to the table (append-only extension). -/
def downloadPowersFor (srs : UniversalSRSM) (newPowers : List Nat) : UniversalSRSM :=
  ⟨srs.powers ++ newPowers⟩

/-- A circuit, reduced to the data specialization depends on: the maximal
polynomial degree its index requires (`CircuitInfo::max_degree`). -/
structure CircuitM where
  maxDegree : Nat
  deriving Repr, DecidableEq

structure ProvingKeyM where
  circuit : CircuitM
  powers : List Nat
  deriving Repr, DecidableEq

structure VerifyingKeyM where
  circuit : CircuitM
  powers : List Nat
  deriving Repr, DecidableEq

/-- Modelled from the spec: `circuit_setup` specializes the SRS for one
circuit by restricting/selecting exactly the SRS elements the circuit's
degree requires (powers `0 ..= maxDegree`), failing (`SetupError`) when the
SRS does not yet hold them. -/
def circuitSetup (srs : UniversalSRSM) (c : CircuitM) :
    Option (ProvingKeyM × VerifyingKeyM) :=
  if c.maxDegree + 1 ≤ srs.powers.length then
    some (⟨c, srs.powers.take (c.maxDegree + 1)⟩, ⟨c, srs.powers.take (c.maxDegree + 1)⟩)
  else none

/-- Claim C8: if specializing `circuit_setup` keys for a circuit succeeds,
then after extending the SRS with `download_powers_for` the re-run setup
yields *the same* (hence byte-identical, serialization being a function of
the key) proving and verifying keys; consequently any verdict a verifier
reached with the old verifying key — in particular the validity of a proof
produced before the extension — is unchanged, the verifying key being
equal. -/
theorem c8_extension_preserves_keys (srs : UniversalSRSM) (newPowers : List Nat)
    (c : CircuitM) (pk : ProvingKeyM) (vk : VerifyingKeyM)
    (h : circuitSetup srs c = some (pk, vk)) :
    circuitSetup (downloadPowersFor srs newPowers) c = some (pk, vk) ∧
    ∀ (verify : VerifyingKeyM → Nat → Bool) (proof : Nat),
      verify vk proof = true →
      ∀ pk2 vk2, circuitSetup (downloadPowersFor srs newPowers) c = some (pk2, vk2) →
        verify vk2 proof = true := by
  unfold circuitSetup at h
  by_cases hle : c.maxDegree + 1 ≤ srs.powers.length
  · rw [if_pos hle] at h
    have hext : circuitSetup (downloadPowersFor srs newPowers) c =
        some (⟨c, srs.powers.take (c.maxDegree + 1)⟩,
              ⟨c, srs.powers.take (c.maxDegree + 1)⟩) := by
      unfold circuitSetup downloadPowersFor
      have hlen : c.maxDegree + 1 ≤ (srs.powers ++ newPowers).length := by
        simp only [List.length_append]; omega
      rw [if_pos hlen, List.take_append_of_le_length hle]
    rw [Option.some_inj] at h
    rw [hext, h]
    exact ⟨rfl, fun verify proof hv pk2 vk2 h2 => by
      have h3 := Option.some_inj.mp h2
      have hvk : vk2 = vk := (Prod.ext_iff.mp h3).2.symm
      rw [hvk]; exact hv⟩
  · rw [if_neg hle] at h; cases h

/-- Witness for C8 at a concrete three-power SRS extended by one power. -/
theorem c8_extension_preserves_keys_witness :
    circuitSetup (downloadPowersFor ⟨[10, 20, 30]⟩ [40]) ⟨1⟩ =
      some (⟨⟨1⟩, [10, 20]⟩, ⟨⟨1⟩, [10, 20]⟩) :=
  (c8_extension_preserves_keys ⟨[10, 20, 30]⟩ [40] ⟨1⟩ ⟨⟨1⟩, [10, 20]⟩ ⟨⟨1⟩, [10, 20]⟩
    (by decide)).1

/-! ## C10 — `PedersenCommitmentParameters` byte round-trip

Source: algorithms/src/commitment/pedersen_parameters.rs lines 49-100.
The group element type `G` and its `write_le`/`read_le` are not under
`src/`; following spec §6 ("fixed-order, length-prefixed sequences of
fixed-width integers and field/group elements, little-endian") a group
element is modelled as a `W`-byte little-endian value, i.e. an element of
`Fin (2 ^ (8 * W))`. -/

def writeG {W : Nat} (g : Fin (2 ^ (8 * W))) : List Nat :=
  leBytesOfNat W g.val

def readG (W : Nat) (s : List Nat) : Option (Fin (2 ^ (8 * W)) × List Nat) :=
  (readBytes W s).map fun p =>
    (⟨natOfLeBytes p.1 % 2 ^ (8 * W), Nat.mod_lt _ (Nat.pos_pow_of_pos _ (by omega))⟩, p.2)

def readGs (W : Nat) : Nat → List Nat → Option (List (Fin (2 ^ (8 * W))) × List Nat)
  | 0, s => some ([], s)
  | n + 1, s => do
      let (g, s1) ← readG W s
      let (gs, s2) ← readGs W n s1
      some (g :: gs, s2)

structure PedersenCommitmentParametersM (W : Nat) where
  /-- `crh.bases`: the nested Pedersen CRH bases table. -/
  bases : List (List (Fin (2 ^ (8 * W))))
  random_base : List (Fin (2 ^ (8 * W)))
  deriving DecidableEq

/-- `PedersenCommitmentParameters::write_le` (pedersen_parameters.rs lines
52-67): `u32` count of bases, then per inner base vector a `u32` length and
its elements, then the `u32` length of `random_base` and its elements.
The `len() as u32` casts truncate modulo `2^32`, which `leBytesOfNat 4`
reproduces. -/
def pedersenWriteLe {W : Nat} (p : PedersenCommitmentParametersM W) : List Nat :=
  leBytesOfNat 4 p.bases.length ++
    (p.bases.flatMap fun base => leBytesOfNat 4 base.length ++ base.flatMap writeG) ++
    leBytesOfNat 4 p.random_base.length ++
    p.random_base.flatMap writeG

def readBases (W : Nat) :
    Nat → List Nat → Option (List (List (Fin (2 ^ (8 * W)))) × List Nat)
  | 0, s => some ([], s)
  | n + 1, s => do
      let (lenB, s1) ← readBytes 4 s
      let (base, s2) ← readGs W (natOfLeBytes lenB) s1
      let (rest, s3) ← readBases W n s2
      some (base :: rest, s3)

/-- `PedersenCommitmentParameters::read_le` (pedersen_parameters.rs lines
74-99): read the `u32` number of bases, that many length-prefixed inner
base vectors, then the `u32` length of `random_base` and its elements.
Trailing bytes are left in the stream (a Rust reader ignores them). -/
def pedersenReadLe (W : Nat) (s : List Nat) :
    Option (PedersenCommitmentParametersM W × List Nat) := do
  let (nb, s1) ← readBytes 4 s
  let (bases, s2) ← readBases W (natOfLeBytes nb) s1
  let (nr, s3) ← readBytes 4 s2
  let (random_base, s4) ← readGs W (natOfLeBytes nr) s3
  some (⟨bases, random_base⟩, s4)

theorem readG_writeG {W : Nat} (g : Fin (2 ^ (8 * W))) (rest : List Nat) :
    readG W (writeG g ++ rest) = some (g, rest) := by
  unfold readG writeG
  have h : readBytes W (leBytesOfNat W g.val ++ rest) = some (leBytesOfNat W g.val, rest) := by
    have := readBytes_append (leBytesOfNat W g.val) rest
    rwa [leBytesOfNat_length] at this
  rw [h, Option.map_some']
  congr 1
  refine Prod.ext ?_ rfl
  apply Fin.ext
  simp only
  rw [natOfLeBytes_leBytesOfNat_of_lt g.isLt, Nat.mod_eq_of_lt g.isLt]

theorem readGs_write {W : Nat} (gs : List (Fin (2 ^ (8 * W)))) (rest : List Nat) :
    readGs W gs.length (gs.flatMap writeG ++ rest) = some (gs, rest) := by
  induction gs with
  | nil => simp [readGs]
  | cons g tl ih =>
    simp only [List.length_cons, List.flatMap_cons, List.append_assoc, readGs]
    rw [readG_writeG g (tl.flatMap writeG ++ rest)]
    simp only [Option.bind_eq_bind, Option.some_bind]
    rw [ih]
    rfl

theorem readBytes_leBytes4 (n : Nat) (rest : List Nat) :
    readBytes 4 (leBytesOfNat 4 n ++ rest) = some (leBytesOfNat 4 n, rest) := by
  have := readBytes_append (leBytesOfNat 4 n) rest
  rwa [leBytesOfNat_length] at this

theorem readBases_write {W : Nat} (bases : List (List (Fin (2 ^ (8 * W)))))
    (rest : List Nat) (hb : ∀ b ∈ bases, b.length < 2 ^ 32) :
    readBases W bases.length
      ((bases.flatMap fun base => leBytesOfNat 4 base.length ++ base.flatMap writeG) ++ rest) =
      some (bases, rest) := by
  induction bases with
  | nil => simp [readBases]
  | cons b tl ih =>
    simp only [List.length_cons, List.flatMap_cons, List.append_assoc, readBases]
    rw [readBytes_leBytes4]
    simp only [Option.bind_eq_bind, Option.some_bind]
    have hlen : natOfLeBytes (leBytesOfNat 4 b.length) = b.length := by
      have hb' : b.length < 2 ^ (8 * 4) := by
        have := hb b (by simp)
        norm_num at this ⊢
        omega
      exact natOfLeBytes_leBytesOfNat_of_lt hb'
    rw [hlen, readGs_write]
    simp only [Option.some_bind]
    rw [ih fun x hx => hb x (by simp [hx])]
    rfl

/-- Claim C10 as amended: the round-trip holds whenever the bases-table
length, every inner base-vector length, and the `random_base` length fit
the `u32` length prefixes (are `< 2^32`); reading back the written bytes
consumes them all and returns parameters equal to `p`. -/
theorem c10_pedersen_roundtrip {W : Nat} (p : PedersenCommitmentParametersM W)
    (h1 : p.bases.length < 2 ^ 32)
    (h2 : ∀ b ∈ p.bases, b.length < 2 ^ 32)
    (h3 : p.random_base.length < 2 ^ 32) :
    pedersenReadLe W (pedersenWriteLe p) = some (p, []) := by
  obtain ⟨bases, random_base⟩ := p
  simp only [pedersenWriteLe, pedersenReadLe, List.append_assoc]
  rw [readBytes_leBytes4]
  simp only [Option.bind_eq_bind, Option.some_bind]
  have hnb : natOfLeBytes (leBytesOfNat 4 bases.length) = bases.length := by
    refine natOfLeBytes_leBytesOfNat_of_lt ?_
    simp only at h1
    norm_num
    omega
  rw [hnb, readBases_write bases _ h2]
  simp only [Option.some_bind]
  rw [readBytes_leBytes4]
  simp only [Option.some_bind]
  have hnr : natOfLeBytes (leBytesOfNat 4 random_base.length) = random_base.length := by
    refine natOfLeBytes_leBytesOfNat_of_lt ?_
    simp only at h3
    norm_num
    omega
  rw [hnr]
  have := readGs_write random_base ([] : List Nat)
  rw [List.append_nil] at this
  rw [this]
  rfl

/-- Witness for the amended C10 at concrete one-byte-group parameters. -/
theorem c10_pedersen_roundtrip_witness :
    pedersenReadLe 1
      (pedersenWriteLe
        (⟨[[⟨5, by norm_num⟩]], [⟨7, by norm_num⟩]⟩ : PedersenCommitmentParametersM 1)) =
      some (⟨[[⟨5, by norm_num⟩]], [⟨7, by norm_num⟩]⟩, []) := by
  exact c10_pedersen_roundtrip _ (by decide) (by decide) (by decide)

theorem flatMap_replicate (n : Nat) (a : α) (f : α → List β) :
    (List.replicate n a).flatMap f = (List.replicate n (f a)).flatten := by
  induction n with
  | zero => rfl
  | succ m ih => simp only [List.replicate_succ, List.flatMap_cons, List.flatten_cons, ih]

theorem flatten_replicate_replicate (n k : Nat) (x : α) :
    (List.replicate n (List.replicate k x)).flatten = List.replicate (n * k) x := by
  induction n with
  | zero => simp
  | succ m ih =>
    simp only [List.replicate_succ, List.flatten_cons, ih]
    rw [← List.replicate_add]
    congr 1
    ring

/-- A bases table with `2^32` (empty) inner vectors: the `len() as u32`
length prefix truncates to `0`. -/
def c10Big : PedersenCommitmentParametersM 1 :=
  ⟨List.replicate (2 ^ 32) [], []⟩

theorem c10Big_write : pedersenWriteLe c10Big = List.replicate (2 ^ 34 + 8) (0 : Nat) := by
  unfold pedersenWriteLe c10Big
  simp only [List.length_replicate, List.length_nil, List.flatMap_nil]
  have e1 : leBytesOfNat 4 (2 ^ 32) = List.replicate 4 0 := by decide
  have e0 : leBytesOfNat 4 0 = List.replicate 4 (0 : Nat) := by decide
  have e2 : (List.replicate (2 ^ 32) ([] : List (Fin (2 ^ (8 * 1))))).flatMap
      (fun base => leBytesOfNat 4 base.length ++ base.flatMap writeG) =
      List.replicate (2 ^ 32 * 4) (0 : Nat) := by
    rw [flatMap_replicate]
    simp only [List.length_nil, List.flatMap_nil, List.append_nil, e0]
    rw [flatten_replicate_replicate]
  rw [e1, e0, e2, List.append_nil, ← List.replicate_add, ← List.replicate_add]
  norm_num

theorem readBytes4_replicate_zero (n : Nat) (h : 4 ≤ n) :
    readBytes 4 (List.replicate n (0 : Nat)) =
      some (List.replicate 4 0, List.replicate (n - 4) 0) := by
  unfold readBytes
  rw [List.length_replicate, if_pos h, List.take_replicate, List.drop_replicate]
  congr 1
  rw [Nat.min_eq_left h]

/-- Claim C10, refuted: for the parameter value `c10Big` whose bases table
holds `2^32` inner vectors, the `u32` length prefix written by `write_le`
truncates (`2^32 as u32 = 0`), so `read_le` on the written bytes returns
empty parameters — not parameters equal to the original.  The round-trip
claim is therefore false without the `< 2^32` length bounds of
`c10_pedersen_roundtrip`. -/
theorem pedersenReadLe_zeros (n : Nat) (h : 8 ≤ n) :
    pedersenReadLe 1 (List.replicate n (0 : Nat)) =
      some ((⟨[], []⟩ : PedersenCommitmentParametersM 1), List.replicate (n - 8) 0) := by
  unfold pedersenReadLe
  rw [readBytes4_replicate_zero n (by omega)]
  have hz : natOfLeBytes (List.replicate 4 0) = 0 := rfl
  simp only [Option.bind_eq_bind, Option.some_bind, hz]
  rw [show ∀ s, readBases 1 0 s = some ([], s) from fun s => rfl]
  simp only [Option.some_bind]
  rw [readBytes4_replicate_zero (n - 4) (by omega)]
  simp only [Option.some_bind, hz]
  rw [show ∀ s, readGs 1 0 s = some ([], s) from fun s => rfl]
  simp only [Option.some_bind]
  have h3 : n - 4 - 4 = n - 8 := by omega
  rw [h3]

theorem c10_counterexample :
    pedersenReadLe 1 (pedersenWriteLe c10Big) =
      some ((⟨[], []⟩ : PedersenCommitmentParametersM 1), List.replicate (2 ^ 34) 0) ∧
    (⟨[], []⟩ : PedersenCommitmentParametersM 1) ≠ c10Big := by
  constructor
  · rw [c10Big_write, pedersenReadLe_zeros (2 ^ 34 + 8) (by norm_num)]
    norm_num
  · intro h
    have hlen := congrArg (fun q : PedersenCommitmentParametersM 1 => q.bases.length) h
    simp only [c10Big, List.length_replicate, List.length_nil] at hlen
    norm_num at hlen

/-! ## C6 / C7 — bech32m and the `VerifyingKey` text form

Source: synthesizer/snark/src/verifying_key/parse.rs lines 18-71, which
delegates to the `bech32` crate (v0.9); the crate's `polymod`,
`hrp_expand`, checksum creation/verification, the `u8 ↔ u5`
`convert_bits`, and `encode`/`decode` are embedded below following its
code (BIP-173/BIP-350).  Strings are modelled as lists of Unicode code
points. -/

theorem Nat.xor_shiftRight_distrib (x y n : Nat) :
    (x ^^^ y) >>> n = (x >>> n) ^^^ (y >>> n) := by
  apply Nat.eq_of_testBit_eq
  intro i
  simp [Nat.testBit_shiftRight, Nat.testBit_xor]

theorem Nat.xor_shiftLeft_distrib (x y n : Nat) :
    (x ^^^ y) <<< n = (x <<< n) ^^^ (y <<< n) := by
  apply Nat.eq_of_testBit_eq
  intro i
  simp only [Nat.testBit_shiftLeft, Nat.testBit_xor]
  cases h : decide (i ≥ n) <;> simp

theorem Nat.or_shiftRight_distrib (x y n : Nat) :
    (x ||| y) >>> n = (x >>> n) ||| (y >>> n) := by
  apply Nat.eq_of_testBit_eq
  intro i
  simp [Nat.testBit_shiftRight, Nat.testBit_or]

theorem Nat.or_and_distrib (x y m : Nat) :
    (x ||| y) &&& m = (x &&& m) ||| (y &&& m) := by
  apply Nat.eq_of_testBit_eq
  intro i
  simp only [Nat.testBit_and, Nat.testBit_or]
  cases x.testBit i <;> cases y.testBit i <;> cases m.testBit i <;> rfl

theorem Nat.shiftRight_eq_zero_of_lt {d n : Nat} (h : d < 2 ^ n) : d >>> n = 0 := by
  rw [Nat.shiftRight_eq_div_pow]
  exact Nat.div_eq_of_lt h

theorem Nat.and_two_pow_sub_one_of_lt {d n : Nat} (h : d < 2 ^ n) :
    d &&& (2 ^ n - 1) = d := by
  rw [Nat.and_pow_two_sub_one_eq_mod, Nat.mod_eq_of_lt h]

theorem Nat.shiftLeft_shiftRight_self (a k : Nat) : a <<< k >>> k = a := by
  rw [Nat.shiftLeft_eq, Nat.shiftRight_eq_div_pow]
  exact Nat.mul_div_cancel a (Nat.pos_pow_of_pos k (by omega))

/-- Disjoint bit concatenation: `(a <<< k) ||| b` with `b < 2^k` is plain
addition. -/
theorem Nat.shiftLeft_or_eq_add (a b k : Nat) (hb : b < 2 ^ k) :
    (a <<< k) ||| b = a <<< k + b := by
  have hdiv : ((a <<< k) ||| b) / 2 ^ k = a := by
    have := Nat.or_shiftRight_distrib (a <<< k) b k
    rw [Nat.shiftLeft_shiftRight_self, Nat.shiftRight_eq_zero_of_lt hb] at this
    simp only [Nat.or_zero] at this
    rw [← Nat.shiftRight_eq_div_pow, this]
  have hmod : ((a <<< k) ||| b) % 2 ^ k = b := by
    have := Nat.or_and_distrib (a <<< k) b (2 ^ k - 1)
    rw [Nat.and_pow_two_sub_one_eq_mod, Nat.and_pow_two_sub_one_eq_mod,
      Nat.and_pow_two_sub_one_eq_mod] at this
    rw [this, Nat.shiftLeft_eq, Nat.mul_mod_left, Nat.mod_eq_of_lt hb]
    simp
  have := Nat.div_add_mod ((a <<< k) ||| b) (2 ^ k)
  rw [hdiv, hmod] at this
  rw [← this, Nat.shiftLeft_eq]
  ring

/-- The emission loop of the `bech32` crate's `convert_bits`
(`while bits >= to { bits -= to; ret.push((acc >> bits) & maxv); }`),
with fuel for structural recursion (`bits` suffices). -/
def convertBits.emit : Nat → Nat → Nat → Nat → List Nat → Nat × List Nat
  | 0, _, _, bits, out => (bits, out)
  | f + 1, tw, acc, bits, out =>
      if tw ≤ bits then
        convertBits.emit f tw acc (bits - tw) (out ++ [(acc >>> (bits - tw)) &&& (2 ^ tw - 1)])
      else (bits, out)

/-- The `bech32` crate's `convert_bits(data, frm, to, pad)`: big-endian
regrouping of `frm`-bit values into `to`-bit values; with `pad` the final
partial group is zero-padded on the right, without `pad` a leftover of
`frm` or more bits or any non-zero padding bit is an `InvalidPadding`
error (`none`). -/
def convertBits.go (frm tw : Nat) (pad : Bool) : List Nat → Nat → Nat → Option (List Nat)
  | [], acc, bits =>
      if pad then
        if 0 < bits then some [(acc <<< (tw - bits)) &&& (2 ^ tw - 1)] else some []
      else if frm ≤ bits ∨ ((acc <<< (tw - bits)) &&& (2 ^ tw - 1)) ≠ 0 then none
      else some []
  | v :: rest, acc, bits =>
      if v >>> frm ≠ 0 then none
      else
        let acc2 := (acc <<< frm) ||| v
        let st := convertBits.emit (bits + frm) tw acc2 (bits + frm) []
        (convertBits.go frm tw pad rest acc2 st.1).map (fun tail => st.2 ++ tail)

/-- `ToBase32` for byte slices (`u8` → `u5`, pad = true). -/
def toBase32 (bytes : List Nat) : Option (List Nat) :=
  convertBits.go 8 5 true bytes 0 0

/-- `Vec::<u8>::from_base32` (`u5` → `u8`, pad = false). -/
def fromBase32 (u5s : List Nat) : Option (List Nat) :=
  convertBits.go 5 8 false u5s 0 0

/-! ### State locality of `convert_bits`

The conversion state `(acc, bits)` only uses the low `bits` bits of the
accumulator: every emitted group and the padding checks read windows below
position `bits`.  This lets each proof step normalize the accumulator. -/

theorem Nat.shiftRight_and_window (x y s t b : Nat)
    (hxy : x % 2 ^ b = y % 2 ^ b) (hb : s + t ≤ b) :
    (x >>> s) &&& (2 ^ t - 1) = (y >>> s) &&& (2 ^ t - 1) := by
  apply Nat.eq_of_testBit_eq
  intro i
  simp only [Nat.testBit_and, Nat.testBit_shiftRight, Nat.testBit_two_pow_sub_one]
  by_cases hit : i < t
  · have hxb : x.testBit (s + i) = y.testBit (s + i) := by
      have hx := congrArg (fun z => z.testBit (s + i)) hxy
      simpa [Nat.testBit_mod_two_pow, show s + i < b by omega] using hx
    rw [hxb]
  · simp [hit]

theorem Nat.shiftLeft_and_window (x y k t b : Nat)
    (hxy : x % 2 ^ b = y % 2 ^ b) (ht : t ≤ k + b) :
    (x <<< k) &&& (2 ^ t - 1) = (y <<< k) &&& (2 ^ t - 1) := by
  apply Nat.eq_of_testBit_eq
  intro i
  simp only [Nat.testBit_and, Nat.testBit_shiftLeft, Nat.testBit_two_pow_sub_one]
  by_cases hit : i < t
  · by_cases hik : k ≤ i
    · have hxb : x.testBit (i - k) = y.testBit (i - k) := by
        have hx := congrArg (fun z => z.testBit (i - k)) hxy
        simpa [Nat.testBit_mod_two_pow, show i - k < b by omega] using hx
      rw [hxb]
    · simp [hik]
  · simp [hit]

theorem Nat.mod_pow_le_congr {x y : Nat} (b b' : Nat)
    (hxy : x % 2 ^ b = y % 2 ^ b) (h : b' ≤ b) : x % 2 ^ b' = y % 2 ^ b' := by
  have hd : 2 ^ b' ∣ 2 ^ b := Nat.pow_dvd_pow 2 h
  calc x % 2 ^ b' = x % 2 ^ b % 2 ^ b' := (Nat.mod_mod_of_dvd x hd).symm
    _ = y % 2 ^ b % 2 ^ b' := by rw [hxy]
    _ = y % 2 ^ b' := Nat.mod_mod_of_dvd y hd

theorem Nat.shiftLeft_or_mod_congr (x y v frm b : Nat)
    (hxy : x % 2 ^ b = y % 2 ^ b) :
    ((x <<< frm) ||| v) % 2 ^ (b + frm) = ((y <<< frm) ||| v) % 2 ^ (b + frm) := by
  apply Nat.eq_of_testBit_eq
  intro i
  simp only [Nat.testBit_mod_two_pow, Nat.testBit_or, Nat.testBit_shiftLeft]
  by_cases hib : i < b + frm
  · by_cases hif : frm ≤ i
    · have hxb : x.testBit (i - frm) = y.testBit (i - frm) := by
        have hx := congrArg (fun z => z.testBit (i - frm)) hxy
        simpa [Nat.testBit_mod_two_pow, show i - frm < b by omega] using hx
      simp [hib, hif, hxb]
    · simp [hib, hif]
  · simp [hib]

theorem convertBits.emit_bits_le (f tw acc bits : Nat) (out : List Nat) :
    (convertBits.emit f tw acc bits out).1 ≤ bits := by
  induction f generalizing bits out with
  | zero => simp [convertBits.emit]
  | succ g ih =>
    by_cases h : tw ≤ bits
    · simp only [convertBits.emit, h, if_true]
      exact le_trans (ih (bits - tw) _) (by omega)
    · simp [convertBits.emit, h]

theorem convertBits.emit_congr (f tw : Nat) :
    ∀ (acc acc' bits : Nat) (out : List Nat),
      acc % 2 ^ bits = acc' % 2 ^ bits →
      convertBits.emit f tw acc bits out = convertBits.emit f tw acc' bits out := by
  induction f with
  | zero => intro acc acc' bits out _; rfl
  | succ g ih =>
    intro acc acc' bits out hmod
    by_cases h : tw ≤ bits
    · simp only [convertBits.emit, h, if_true]
      rw [Nat.shiftRight_and_window acc acc' (bits - tw) tw bits hmod (by omega)]
      exact ih acc acc' (bits - tw) _ (Nat.mod_pow_le_congr bits (bits - tw) hmod (by omega))
    · simp [convertBits.emit, h]

/-- `convert_bits` reads the accumulator only modulo `2^bits`. -/
theorem convertBits.go_congr (frm tw : Nat) (pad : Bool) :
    ∀ (l : List Nat) (acc acc' bits : Nat),
      acc % 2 ^ bits = acc' % 2 ^ bits →
      convertBits.go frm tw pad l acc bits = convertBits.go frm tw pad l acc' bits := by
  intro l
  induction l with
  | nil =>
    intro acc acc' bits hmod
    have hw : (acc <<< (tw - bits)) &&& (2 ^ tw - 1) =
        (acc' <<< (tw - bits)) &&& (2 ^ tw - 1) :=
      Nat.shiftLeft_and_window acc acc' (tw - bits) tw bits hmod (by omega)
    simp only [convertBits.go, hw]
  | cons v rest ih =>
    intro acc acc' bits hmod
    simp only [convertBits.go]
    by_cases hv : v >>> frm ≠ 0
    · simp [hv]
    · simp only [hv, if_false]
      have hacc2 : ((acc <<< frm) ||| v) % 2 ^ (bits + frm) =
          ((acc' <<< frm) ||| v) % 2 ^ (bits + frm) :=
        Nat.shiftLeft_or_mod_congr acc acc' v frm bits hmod
      have hemit : convertBits.emit (bits + frm) tw ((acc <<< frm) ||| v) (bits + frm) [] =
          convertBits.emit (bits + frm) tw ((acc' <<< frm) ||| v) (bits + frm) [] :=
        convertBits.emit_congr (bits + frm) tw _ _ (bits + frm) [] hacc2
      rw [hemit]
      have hrec : convertBits.go frm tw pad rest ((acc <<< frm) ||| v)
          (convertBits.emit (bits + frm) tw ((acc' <<< frm) ||| v) (bits + frm) []).1 =
          convertBits.go frm tw pad rest ((acc' <<< frm) ||| v)
          (convertBits.emit (bits + frm) tw ((acc' <<< frm) ||| v) (bits + frm) []).1 := by
        apply ih
        exact Nat.mod_pow_le_congr (bits + frm) _ hacc2
          (convertBits.emit_bits_le (bits + frm) tw _ (bits + frm) [])
      rw [hrec]

theorem Nat.and31_lt (x : Nat) : x &&& 31 < 32 :=
  lt_of_le_of_lt Nat.and_le_right (by norm_num)

theorem Nat.and31_shiftRight5 (x : Nat) : (x &&& 31) >>> 5 = 0 :=
  Nat.shiftRight_eq_zero_of_lt (lt_of_le_of_lt Nat.and_le_right (by norm_num))

theorem Nat.or8_eq_add (a b : Nat) (h : b < 256) : (a <<< 8) ||| b = a * 256 + b := by
  rw [Nat.shiftLeft_or_eq_add a b 8 (by norm_num; omega), Nat.shiftLeft_eq]

theorem Nat.or5_eq_add (a b : Nat) (h : b < 32) : (a <<< 5) ||| b = a * 32 + b := by
  rw [Nat.shiftLeft_or_eq_add a b 5 (by norm_num; omega), Nat.shiftLeft_eq]

theorem Nat.or5_and31 (a x : Nat) : (a <<< 5) ||| (x &&& 31) = a * 32 + (x &&& 31) :=
  Nat.or5_eq_add a (x &&& 31) (Nat.and31_lt x)

theorem Nat.orMul32_eq_add (a x : Nat) : a * 32 ||| x % 32 = a * 32 + x % 32 := by
  have h := Nat.or5_eq_add a (x % 32) (Nat.mod_lt x (by norm_num))
  rw [Nat.shiftLeft_eq] at h
  have h32 : a * 2 ^ 5 = a * 32 := by norm_num
  rwa [h32] at h

theorem Nat.orMul256_eq_add (a b : Nat) (hb : b < 256) : a * 256 ||| b = a * 256 + b := by
  have h := Nat.or8_eq_add a b hb
  rw [Nat.shiftLeft_eq] at h
  have h256 : a * 2 ^ 8 = a * 256 := by norm_num
  rwa [h256] at h

theorem Nat.and31_eq_mod (x : Nat) : x &&& 31 = x % 32 := by
  have := Nat.and_pow_two_sub_one_eq_mod x 5
  norm_num at this
  exact this

theorem Nat.and255_eq_mod (x : Nat) : x &&& 255 = x % 256 := by
  have := Nat.and_pow_two_sub_one_eq_mod x 8
  norm_num at this
  exact this

theorem convertBits.go_acc_zero (frm tw : Nat) (pad : Bool) (l : List Nat) (acc : Nat) :
    convertBits.go frm tw pad l acc 0 = convertBits.go frm tw pad l 0 0 :=
  convertBits.go_congr frm tw pad l acc 0 0 (by simp [Nat.mod_one])

set_option maxHeartbeats 2000000 in
set_option linter.unusedTactic false in
/-- `from_base32 ∘ to_base32` is the identity on byte lists (the composed
`convert_bits` round-trip), by induction over five-byte blocks — after
each full block the conversion state returns to `(acc, 0)` and
`convertBits.go_congr` normalizes the accumulator to `0`. -/
theorem convertBits_roundtrip_aux : ∀ n : Nat, ∀ bytes : List Nat, bytes.length ≤ n →
    (∀ b ∈ bytes, b < 256) →
    (convertBits.go 8 5 true bytes 0 0).bind (fun u5s => convertBits.go 5 8 false u5s 0 0) =
      some bytes := by
  intro n
  induction n with
  | zero =>
    intro bytes hlen _
    have hnil : bytes = [] := List.length_eq_zero.mp (by omega)
    subst hnil
    rfl
  | succ m ih =>
    intro bytes hlen hb
    rcases bytes with _ | ⟨b0, _ | ⟨b1, _ | ⟨b2, _ | ⟨b3, _ | ⟨b4, rest⟩⟩⟩⟩⟩
    · rfl
    · have h0 : b0 < 256 := hb b0 (by simp)
      have e0 : b0 >>> 8 = 0 := Nat.shiftRight_eq_zero_of_lt (by norm_num; omega)
      have o0 : ∀ a, a * 256 ||| b0 = a * 256 + b0 := fun a => Nat.orMul256_eq_add a b0 h0
      simp [convertBits.go, convertBits.emit, e0, Nat.and31_shiftRight5]
      refine ⟨?_, ?_⟩ <;>
        (simp only [o0, Nat.and31_eq_mod, Nat.and255_eq_mod,
          Nat.shiftLeft_eq, Nat.shiftRight_eq_div_pow]; norm_num;
         try simp only [Nat.orMul32_eq_add, o0];
         try norm_num;
         try omega)
    · have h0 : b0 < 256 := hb b0 (by simp)
      have h1 : b1 < 256 := hb b1 (by simp)
      have e0 : b0 >>> 8 = 0 := Nat.shiftRight_eq_zero_of_lt (by norm_num; omega)
      have e1 : b1 >>> 8 = 0 := Nat.shiftRight_eq_zero_of_lt (by norm_num; omega)
      have o0 : ∀ a, a * 256 ||| b0 = a * 256 + b0 := fun a => Nat.orMul256_eq_add a b0 h0
      have o1 : ∀ a, a * 256 ||| b1 = a * 256 + b1 := fun a => Nat.orMul256_eq_add a b1 h1
      simp [convertBits.go, convertBits.emit, e0, e1, Nat.and31_shiftRight5]
      refine ⟨?_, ?_, ?_⟩ <;>
        (simp only [o0, o1, Nat.and31_eq_mod, Nat.and255_eq_mod,
          Nat.shiftLeft_eq, Nat.shiftRight_eq_div_pow]; norm_num;
         try simp only [Nat.orMul32_eq_add, o0, o1];
         try norm_num;
         try omega)
    · have h0 : b0 < 256 := hb b0 (by simp)
      have h1 : b1 < 256 := hb b1 (by simp)
      have h2 : b2 < 256 := hb b2 (by simp)
      have e0 : b0 >>> 8 = 0 := Nat.shiftRight_eq_zero_of_lt (by norm_num; omega)
      have e1 : b1 >>> 8 = 0 := Nat.shiftRight_eq_zero_of_lt (by norm_num; omega)
      have e2 : b2 >>> 8 = 0 := Nat.shiftRight_eq_zero_of_lt (by norm_num; omega)
      have o0 : ∀ a, a * 256 ||| b0 = a * 256 + b0 := fun a => Nat.orMul256_eq_add a b0 h0
      have o1 : ∀ a, a * 256 ||| b1 = a * 256 + b1 := fun a => Nat.orMul256_eq_add a b1 h1
      have o2 : ∀ a, a * 256 ||| b2 = a * 256 + b2 := fun a => Nat.orMul256_eq_add a b2 h2
      simp [convertBits.go, convertBits.emit, e0, e1, e2, Nat.and31_shiftRight5]
      refine ⟨?_, ?_, ?_, ?_⟩ <;>
        (simp only [o0, o1, o2, Nat.and31_eq_mod, Nat.and255_eq_mod,
          Nat.shiftLeft_eq, Nat.shiftRight_eq_div_pow]; norm_num;
         try simp only [Nat.orMul32_eq_add, o0, o1, o2];
         try norm_num;
         try omega)
    · have h0 : b0 < 256 := hb b0 (by simp)
      have h1 : b1 < 256 := hb b1 (by simp)
      have h2 : b2 < 256 := hb b2 (by simp)
      have h3 : b3 < 256 := hb b3 (by simp)
      have e0 : b0 >>> 8 = 0 := Nat.shiftRight_eq_zero_of_lt (by norm_num; omega)
      have e1 : b1 >>> 8 = 0 := Nat.shiftRight_eq_zero_of_lt (by norm_num; omega)
      have e2 : b2 >>> 8 = 0 := Nat.shiftRight_eq_zero_of_lt (by norm_num; omega)
      have e3 : b3 >>> 8 = 0 := Nat.shiftRight_eq_zero_of_lt (by norm_num; omega)
      have o0 : ∀ a, a * 256 ||| b0 = a * 256 + b0 := fun a => Nat.orMul256_eq_add a b0 h0
      have o1 : ∀ a, a * 256 ||| b1 = a * 256 + b1 := fun a => Nat.orMul256_eq_add a b1 h1
      have o2 : ∀ a, a * 256 ||| b2 = a * 256 + b2 := fun a => Nat.orMul256_eq_add a b2 h2
      have o3 : ∀ a, a * 256 ||| b3 = a * 256 + b3 := fun a => Nat.orMul256_eq_add a b3 h3
      simp [convertBits.go, convertBits.emit, e0, e1, e2, e3, Nat.and31_shiftRight5]
      refine ⟨?_, ?_, ?_, ?_, ?_⟩ <;>
        (simp only [o0, o1, o2, o3, Nat.and31_eq_mod, Nat.and255_eq_mod,
          Nat.shiftLeft_eq, Nat.shiftRight_eq_div_pow]; norm_num;
         try simp only [Nat.orMul32_eq_add, o0, o1, o2, o3];
         try norm_num;
         try omega)
    · -- full five-byte block
      have h0 : b0 < 256 := hb b0 (by simp)
      have h1 : b1 < 256 := hb b1 (by simp)
      have h2 : b2 < 256 := hb b2 (by simp)
      have h3 : b3 < 256 := hb b3 (by simp)
      have h4 : b4 < 256 := hb b4 (by simp)
      have e0 : b0 >>> 8 = 0 := Nat.shiftRight_eq_zero_of_lt (by norm_num; omega)
      have e1 : b1 >>> 8 = 0 := Nat.shiftRight_eq_zero_of_lt (by norm_num; omega)
      have e2 : b2 >>> 8 = 0 := Nat.shiftRight_eq_zero_of_lt (by norm_num; omega)
      have e3 : b3 >>> 8 = 0 := Nat.shiftRight_eq_zero_of_lt (by norm_num; omega)
      have e4 : b4 >>> 8 = 0 := Nat.shiftRight_eq_zero_of_lt (by norm_num; omega)
      have o0 : ∀ a, a * 256 ||| b0 = a * 256 + b0 := fun a => Nat.orMul256_eq_add a b0 h0
      have o1 : ∀ a, a * 256 ||| b1 = a * 256 + b1 := fun a => Nat.orMul256_eq_add a b1 h1
      have o2 : ∀ a, a * 256 ||| b2 = a * 256 + b2 := fun a => Nat.orMul256_eq_add a b2 h2
      have o3 : ∀ a, a * 256 ||| b3 = a * 256 + b3 := fun a => Nat.orMul256_eq_add a b3 h3
      have o4 : ∀ a, a * 256 ||| b4 = a * 256 + b4 := fun a => Nat.orMul256_eq_add a b4 h4
      have hIH : (convertBits.go 8 5 true rest 0 0).bind
          (fun u5s => convertBits.go 5 8 false u5s 0 0) = some rest := by
        refine ih rest ?_ fun b hbmem => hb b (by simp [hbmem])
        simp only [List.length_cons] at hlen
        omega
      rcases hgo : convertBits.go 8 5 true rest 0 0 with _ | t8
      · rw [hgo] at hIH
        simp at hIH
      · rw [hgo] at hIH
        simp only [Option.some_bind] at hIH
        simp [convertBits.go, convertBits.emit, e0, e1, e2, e3, e4, Nat.and31_shiftRight5]
        rw [convertBits.go_acc_zero, hgo]
        simp [convertBits.go, convertBits.emit, Nat.and31_shiftRight5]
        rw [convertBits.go_acc_zero, hIH]
        simp
        refine ⟨?_, ?_, ?_, ?_, ?_⟩ <;>
          (simp only [o0, o1, o2, o3, o4, Nat.and31_eq_mod, Nat.and255_eq_mod,
            Nat.shiftLeft_eq, Nat.shiftRight_eq_div_pow]; norm_num;
           try simp only [Nat.orMul32_eq_add, o0, o1, o2, o3, o4];
           try norm_num;
           try omega)

/-! ### The bech32 checksum (`polymod`, `hrp_expand`, create/verify) -/

/-- One step of the `bech32` crate's `polymod`: `b = chk >> 25;
chk = (chk & 0x1ffffff) << 5 ^ v;` then `chk ^= GEN[i]` for each set bit
`i` of `b`. -/
def genSel (b : Nat) : Nat :=
  ((((if b.testBit 0 then 0x3b6a57b2 else 0) ^^^
     (if b.testBit 1 then 0x26508e6d else 0)) ^^^
     (if b.testBit 2 then 0x1ea119fa else 0)) ^^^
     (if b.testBit 3 then 0x3d4233dd else 0)) ^^^
     (if b.testBit 4 then 0x2a1462b3 else 0)

def polymodStep (chk v : Nat) : Nat :=
  (((chk &&& 0x1ffffff) <<< 5) ^^^ v) ^^^ genSel (chk >>> 25)

/-- `u5::check_base32`-typed polymod over the value list, initial state 1. -/
def polymod (vs : List Nat) : Nat := vs.foldl polymodStep 1

/-- `hrp_expand`: high bits of each byte, a zero, then the low 5 bits. -/
def hrpExpand (hrp : List Nat) : List Nat :=
  hrp.map (fun b => b >>> 5) ++ [0] ++ hrp.map (fun b => b &&& 31)

inductive Bech32Variant
  | bech32
  | bech32m
  deriving DecidableEq, Repr

/-- `Variant::constant()`: 1 for bech32, 0x2bc830a3 for bech32m. -/
def variantConst : Bech32Variant → Nat
  | .bech32 => 1
  | .bech32m => 0x2bc830a3

/-- `Variant::from_remainder`. -/
def variantFromRemainder (c : Nat) : Option Bech32Variant :=
  if c = 1 then some .bech32
  else if c = 0x2bc830a3 then some .bech32m
  else none

/-- `create_checksum`: polymod over the expanded hrp, the data and six
zeros, xor the variant constant, then the six 5-bit chunks, high first. -/
def createChecksum (hrp data : List Nat) (variant : Bech32Variant) : List Nat :=
  let t := polymod ((hrpExpand hrp ++ data) ++ [0, 0, 0, 0, 0, 0]) ^^^ variantConst variant
  [(t >>> 25) &&& 31, (t >>> 20) &&& 31, (t >>> 15) &&& 31,
   (t >>> 10) &&& 31, (t >>> 5) &&& 31, t &&& 31]

theorem Nat.xor_left_comm (a b c : Nat) : a ^^^ (b ^^^ c) = b ^^^ (a ^^^ c) := by
  rw [← Nat.xor_assoc, Nat.xor_comm a b, Nat.xor_assoc]

theorem genSel_lt (b : Nat) : genSel b < 2 ^ 30 := by
  unfold genSel
  refine Nat.xor_lt_two_pow (Nat.xor_lt_two_pow (Nat.xor_lt_two_pow (Nat.xor_lt_two_pow
    ?_ ?_) ?_) ?_) ?_ <;> split <;> norm_num

theorem polymodStep_lt (chk v : Nat) (hv : v < 32) : polymodStep chk v < 2 ^ 30 := by
  unfold polymodStep
  refine Nat.xor_lt_two_pow (Nat.xor_lt_two_pow ?_ (by omega)) (genSel_lt _)
  have h1 : chk &&& 0x1ffffff < 2 ^ 25 := by
    have := Nat.and_le_right (n := chk) (m := 0x1ffffff)
    norm_num at this ⊢
    omega
  rw [Nat.shiftLeft_eq]
  calc (chk &&& 0x1ffffff) * 2 ^ 5 < 2 ^ 25 * 2 ^ 5 := by
        have : (0 : Nat) < 2 ^ 5 := by norm_num
        exact (Nat.mul_lt_mul_right this).mpr h1
    _ = 2 ^ 30 := by norm_num

theorem foldl_polymodStep_lt (vs : List Nat) :
    ∀ init : Nat, init < 2 ^ 30 → (∀ v ∈ vs, v < 32) →
      vs.foldl polymodStep init < 2 ^ 30 := by
  induction vs with
  | nil => intro init h _; simpa using h
  | cons v tl ih =>
    intro init _ hv
    simp only [List.foldl_cons]
    exact ih (polymodStep init v) (polymodStep_lt init v (hv v (by simp)))
      fun w hw => hv w (by simp [hw])

theorem polymod_lt (vs : List Nat) (h : ∀ v ∈ vs, v < 32) : polymod vs < 2 ^ 30 :=
  foldl_polymodStep_lt vs 1 (by norm_num) h

theorem polymodStep_zero_xor (chk v : Nat) :
    polymodStep chk v = polymodStep chk 0 ^^^ v := by
  unfold polymodStep
  simp only [Nat.xor_zero]
  rw [Nat.xor_assoc, Nat.xor_comm v (genSel (chk >>> 25)), ← Nat.xor_assoc]

theorem polymodStep_xor_low (chk d v : Nat) (hd : d < 2 ^ 25) :
    polymodStep (chk ^^^ d) v = polymodStep chk v ^^^ (d <<< 5) := by
  unfold polymodStep
  have hsr : (chk ^^^ d) >>> 25 = chk >>> 25 := by
    rw [Nat.xor_shiftRight_distrib, Nat.shiftRight_eq_zero_of_lt hd, Nat.xor_zero]
  have hand : (chk ^^^ d) &&& 0x1ffffff = (chk &&& 0x1ffffff) ^^^ d := by
    rw [Nat.and_xor_distrib_right]
    congr 1
    have := Nat.and_two_pow_sub_one_of_lt hd
    norm_num at this ⊢
    exact this
  rw [hsr, hand, Nat.xor_shiftLeft_distrib]
  generalize (chk &&& 0x1ffffff) <<< 5 = A
  generalize genSel (chk >>> 25) = G
  rw [Nat.xor_assoc A (d <<< 5) v, Nat.xor_comm (d <<< 5) v, ← Nat.xor_assoc A v (d <<< 5),
    Nat.xor_assoc (A ^^^ v) (d <<< 5) G, Nat.xor_comm (d <<< 5) G,
    ← Nat.xor_assoc (A ^^^ v) G (d <<< 5)]

theorem split5 (u : Nat) : ((u >>> 5) <<< 5) ^^^ (u &&& 31) = u := by
  apply Nat.eq_of_testBit_eq
  intro i
  have h31 : (31 : Nat) = 2 ^ 5 - 1 := by norm_num
  simp only [Nat.testBit_xor, Nat.testBit_shiftLeft, Nat.testBit_shiftRight,
    Nat.testBit_and, h31, Nat.testBit_two_pow_sub_one]
  by_cases h5 : 5 ≤ i
  · have : 5 + (i - 5) = i := by omega
    simp [h5, this, show ¬ i < 5 by omega]
  · simp [h5, show i < 5 by omega]

theorem shiftRight_lt_of_lt {t : Nat} (sh : Nat) (ht : t < 2 ^ 30) (hsh : 5 ≤ sh) :
    t >>> sh < 2 ^ 25 := by
  rw [Nat.shiftRight_eq_div_pow]
  have h1 : t / 2 ^ sh ≤ t / 2 ^ 5 :=
    Nat.div_le_div_left (Nat.pow_le_pow_right (by omega) hsh) (by positivity)
  have h2 : t / 2 ^ 5 < 2 ^ 25 := by
    rw [Nat.div_lt_iff_lt_mul (by positivity)]
    calc t < 2 ^ 30 := ht
      _ = 2 ^ 25 * 2 ^ 5 := by norm_num
  omega

theorem stepChunk (z t sh5 : Nat) (ht : t < 2 ^ 30) :
    polymodStep (z ^^^ (t >>> (sh5 + 5))) ((t >>> sh5) &&& 31) =
      polymodStep z 0 ^^^ (t >>> sh5) := by
  have hd : t >>> (sh5 + 5) < 2 ^ 25 := shiftRight_lt_of_lt (sh5 + 5) ht (by omega)
  rw [polymodStep_xor_low z (t >>> (sh5 + 5)) _ hd, polymodStep_zero_xor]
  have hsr : (t >>> sh5) >>> 5 = t >>> (sh5 + 5) := by
    rw [← Nat.shiftRight_add]
  have hsplit : ((t >>> (sh5 + 5)) <<< 5) ^^^ ((t >>> sh5) &&& 31) = t >>> sh5 := by
    rw [← hsr]
    exact split5 (t >>> sh5)
  generalize polymodStep z 0 = Z
  rw [Nat.xor_assoc Z ((t >>> sh5) &&& 31) ((t >>> (sh5 + 5)) <<< 5),
    Nat.xor_comm ((t >>> sh5) &&& 31) ((t >>> (sh5 + 5)) <<< 5), hsplit]

/-- Verifying the created checksum: appending `create_checksum`'s six
values to the polymod input makes the remainder exactly the variant
constant (what `verify_checksum` tests). -/
theorem polymod_append_createChecksum (hrp data : List Nat) (variant : Bech32Variant)
    (hvals : ∀ v ∈ hrpExpand hrp ++ data, v < 32) :
    polymod ((hrpExpand hrp ++ data) ++ createChecksum hrp data variant) =
      variantConst variant := by
  have hC : variantConst variant < 2 ^ 30 := by cases variant <;> norm_num [variantConst]
  have hs : polymod (hrpExpand hrp ++ data) < 2 ^ 30 := polymod_lt _ hvals
  set s := polymod (hrpExpand hrp ++ data) with hsdef
  set t := polymod ((hrpExpand hrp ++ data) ++ [0, 0, 0, 0, 0, 0]) ^^^ variantConst variant
    with htdef
  have ht : t < 2 ^ 30 := by
    rw [htdef]
    refine Nat.xor_lt_two_pow ?_ hC
    rw [polymod, List.foldl_append]
    exact foldl_polymodStep_lt _ _ (by rw [← polymod]; exact hs) (by decide)
  have hcs : createChecksum hrp data variant =
      [(t >>> 25) &&& 31, (t >>> 20) &&& 31, (t >>> 15) &&& 31,
       (t >>> 10) &&& 31, (t >>> 5) &&& 31, t &&& 31] := rfl
  rw [hcs, polymod, List.foldl_append, ← polymod, ← hsdef]
  simp only [List.foldl_cons, List.foldl_nil]
  have h30 : t >>> 30 = 0 := Nat.shiftRight_eq_zero_of_lt ht
  have hfirst : s = s ^^^ (t >>> 30) := by rw [h30, Nat.xor_zero]
  rw [hfirst]
  rw [stepChunk s t 25 ht]
  set z1 := polymodStep s 0 with hz1
  rw [stepChunk z1 t 20 ht]
  set z2 := polymodStep z1 0 with hz2
  rw [stepChunk z2 t 15 ht]
  set z3 := polymodStep z2 0 with hz3
  rw [stepChunk z3 t 10 ht]
  set z4 := polymodStep z3 0 with hz4
  rw [stepChunk z4 t 5 ht]
  set z5 := polymodStep z4 0 with hz5
  rw [show (t &&& 31) = ((t >>> 0) &&& 31) by rw [Nat.shiftRight_zero]]
  rw [stepChunk z5 t 0 ht]
  set z6 := polymodStep z5 0 with hz6
  have hz6' : z6 = polymod ((hrpExpand hrp ++ data) ++ [0, 0, 0, 0, 0, 0]) := by
    rw [polymod, List.foldl_append, ← polymod, ← hsdef]
    simp only [List.foldl_cons, List.foldl_nil]
  rw [Nat.shiftRight_zero, htdef, ← hz6']
  rw [← Nat.xor_assoc, Nat.xor_self, Nat.zero_xor]

/-! ### bech32 encode / decode -/

/-- The bech32 data charset "qpzry9x8gf2tvdw0s3jn54khce6mua7l", as ASCII
codes. -/
def CHARSET : List Nat :=
  [113, 112, 122, 114, 121, 57, 120, 56, 103, 102, 50, 116, 118, 100, 119, 48,
   115, 51, 106, 110, 53, 52, 107, 104, 99, 101, 54, 109, 117, 97, 55, 108]

def charsetChar (v : Nat) : Nat := CHARSET.getD v 0

def toLowerByte (c : Nat) : Nat := if 65 ≤ c ∧ c ≤ 90 then c + 32 else c

/-- `CHARSET_REV` lookup: the crate's 128-entry table maps each charset
character — upper or lower case — to its 5-bit value and everything else
to `-1`; equivalently, the index of the lowercased character in
`CHARSET`. -/
def charsetRevLookup (c : Nat) : Option Nat :=
  let i := CHARSET.indexOf (toLowerByte c)
  if i < 32 then some i else none

def isLowerByte (c : Nat) : Bool := decide (97 ≤ c) && decide (c ≤ 122)

def isUpperByte (c : Nat) : Bool := decide (65 ≤ c) && decide (c ≤ 90)

def hasLower (l : List Nat) : Bool := l.any isLowerByte

def hasUpper (l : List Nat) : Bool := l.any isUpperByte

/-- `check_hrp`: nonempty, at most 83 bytes, all in the visible ASCII
range 33..=126, and not mixed-case. -/
def checkHrp (hrp : List Nat) : Bool :=
  !(hrp.isEmpty || decide (83 < hrp.length)) &&
    hrp.all (fun b => decide (33 ≤ b) && decide (b ≤ 126)) &&
    !(hasLower hrp && hasUpper hrp)

def hrpLower (hrp : List Nat) : List Nat := hrp.map toLowerByte

/-- The bech32 separator character `'1'`. -/
def SEP : Nat := 49

/-- `bech32::encode(hrp, data, variant)`: after `check_hrp`, the
lowercased hrp, the separator, then the data and checksum rendered
through `CHARSET`. -/
def bech32Encode (hrp data : List Nat) (variant : Bech32Variant) : Option (List Nat) :=
  if checkHrp hrp then
    some (hrpLower hrp ++ [SEP] ++
      (data ++ createChecksum (hrpLower hrp) data variant).map charsetChar)
  else none

/-- `s.rfind(SEP)`: index of the last separator. -/
def lastSepIdx : List Nat → Option Nat
  | [] => none
  | c :: rest =>
    match lastSepIdx rest with
    | some i => some (i + 1)
    | none => if c = SEP then some 0 else none

def dataCharValue (c : Nat) : Option Nat :=
  if c < 128 then charsetRevLookup c else none

/-- `bech32::decode`: split at the last separator, `check_hrp`, reject a
non-ASCII data character, a character outside `CHARSET_REV`, or mixed
case across the whole string (the crate threads the case through a small
state machine starting from the hrp's case; with an unmixed hrp that is
equivalent to the whole string not containing both cases), require at
least six data characters, verify the checksum to learn the variant, and
return the data without its checksum. -/
def bech32Decode (s : List Nat) : Option (List Nat × List Nat × Bech32Variant) :=
  match lastSepIdx s with
  | none => none
  | some sep =>
    let rawHrp := s.take sep
    let rawData := s.drop (sep + 1)
    if checkHrp rawHrp &&
        !(hasLower (rawHrp ++ rawData) && hasUpper (rawHrp ++ rawData)) then
      match rawData.mapM dataCharValue with
      | none => none
      | some data =>
        if data.length < 6 then none
        else
          match variantFromRemainder (polymod (hrpExpand (hrpLower rawHrp) ++ data)) with
          | none => none
          | some variant =>
            some (hrpLower rawHrp, data.take (data.length - 6), variant)
    else none

theorem lastSepIdx_none_of_not_mem {l : List Nat} (h : SEP ∉ l) : lastSepIdx l = none := by
  induction l with
  | nil => rfl
  | cons c rest ih =>
    have hc : c ≠ SEP := fun hceq => h (by simp [hceq])
    have hrest : SEP ∉ rest := fun hm => h (by simp [hm])
    simp [lastSepIdx, ih hrest, hc]

theorem lastSepIdx_append (a b : List Nat) (ha : SEP ∉ a) (hb : SEP ∉ b) :
    lastSepIdx (a ++ SEP :: b) = some a.length := by
  induction a with
  | nil =>
    simp [lastSepIdx, lastSepIdx_none_of_not_mem hb]
  | cons c rest ih =>
    have hrest : SEP ∉ rest := fun hm => ha (by simp [hm])
    simp [lastSepIdx, ih hrest]

theorem createChecksum_mem_lt (hrp data : List Nat) (variant : Bech32Variant) :
    ∀ v ∈ createChecksum hrp data variant, v < 32 := by
  intro v hv
  simp only [createChecksum, List.mem_cons, List.not_mem_nil, or_false] at hv
  rcases hv with h | h | h | h | h | h <;> (subst h; exact Nat.and31_lt _)

theorem charsetChar_props :
    ∀ v : Nat, v < 32 →
      charsetChar v ≠ SEP ∧ isUpperByte (charsetChar v) = false ∧
      dataCharValue (charsetChar v) = some v := by
  decide

theorem mapM_dataCharValue_map (l : List Nat) (h : ∀ v ∈ l, v < 32) :
    (l.map charsetChar).mapM dataCharValue = some l := by
  induction l with
  | nil => rfl
  | cons v tl ih =>
    have hv := (charsetChar_props v (h v (by simp))).2.2
    simp only [List.map_cons, List.mapM_cons, hv, ih fun w hw => h w (by simp [hw]),
      Option.bind_eq_bind, Option.some_bind, Option.map_some', Option.pure_def]

theorem hrpLower_eq_self {hrp : List Nat} (h : hasUpper hrp = false) :
    hrpLower hrp = hrp := by
  induction hrp with
  | nil => rfl
  | cons b tl ih =>
    simp only [hasUpper, List.any_cons, Bool.or_eq_false_iff] at h
    have hb : toLowerByte b = b := by
      unfold toLowerByte
      rw [if_neg]
      intro hcon
      have := h.1
      simp [isUpperByte, hcon.1, hcon.2] at this
    have htl := ih (by simp [hasUpper, h.2])
    simp only [hrpLower, List.map_cons, hb]
    rw [hrpLower] at htl
    rw [htl]

theorem checkHrp_bounds {hrp : List Nat} (h : checkHrp hrp = true) :
    ∀ b ∈ hrp, 33 ≤ b ∧ b ≤ 126 := by
  intro b hb
  unfold checkHrp at h
  rw [Bool.and_eq_true, Bool.and_eq_true] at h
  have := h.1.2
  rw [List.all_eq_true] at this
  have hx := this b hb
  simp at hx
  exact hx

theorem hrpExpand_mem_lt {hrp : List Nat} (h : ∀ b ∈ hrp, 33 ≤ b ∧ b ≤ 126) :
    ∀ v ∈ hrpExpand hrp, v < 32 := by
  intro v hv
  simp only [hrpExpand, List.mem_append, List.mem_cons, List.mem_map,
    List.not_mem_nil, or_false, List.mem_singleton] at hv
  rcases hv with (⟨b, hb, rfl⟩ | rfl) | ⟨b, hb, rfl⟩
  · have hble := (h b hb).2
    rw [Nat.shiftRight_eq_div_pow]
    have : b / 2 ^ 5 ≤ 126 / 2 ^ 5 := Nat.div_le_div_right hble
    norm_num at this
    omega
  · norm_num
  · exact Nat.and31_lt b

theorem variantFromRemainder_const (variant : Bech32Variant) :
    variantFromRemainder (variantConst variant) = some variant := by
  cases variant <;> rfl

/-- Decoding an encoded bech32 string recovers the (lowercase) hrp, the
data and the variant. -/
theorem bech32Decode_bech32Encode (hrp data : List Nat) (variant : Bech32Variant)
    (hh : checkHrp hrp = true) (hup : hasUpper hrp = false) (hsep : SEP ∉ hrp)
    (hd : ∀ v ∈ data, v < 32) :
    ∀ s, bech32Encode hrp data variant = some s →
      bech32Decode s = some (hrp, data, variant) := by
  intro s hs
  unfold bech32Encode at hs
  rw [if_pos hh, Option.some_inj] at hs
  rw [hrpLower_eq_self hup] at hs
  subst hs
  set cs := createChecksum hrp data variant with hcs
  set mapped := (data ++ cs).map charsetChar with hmapped
  have hdcs : ∀ v ∈ data ++ cs, v < 32 := by
    intro v hv
    rcases List.mem_append.mp hv with h | h
    · exact hd v h
    · exact createChecksum_mem_lt hrp data variant v h
  have hsepm : SEP ∉ mapped := by
    intro hm
    rcases List.mem_map.mp hm with ⟨v, hvmem, hveq⟩
    exact (charsetChar_props v (hdcs v hvmem)).1 hveq
  have hform : hrp ++ [SEP] ++ mapped = hrp ++ SEP :: mapped := by
    rw [List.append_assoc, List.singleton_append]
  rw [hform]
  have htake : (hrp ++ SEP :: mapped).take hrp.length = hrp := by
    rw [List.take_left]
  have hdrop : (hrp ++ SEP :: mapped).drop (hrp.length + 1) = mapped := by
    have heq : hrp ++ SEP :: mapped = (hrp ++ [SEP]) ++ mapped := by
      rw [List.append_assoc, List.singleton_append]
    rw [heq]
    have hlen : hrp.length + 1 = (hrp ++ [SEP]).length := by simp
    rw [hlen, List.drop_left]
  unfold bech32Decode
  rw [lastSepIdx_append hrp mapped hsep hsepm]
  simp only [htake, hdrop]
  have hupm : hasUpper mapped = false := by
    rw [hasUpper, List.any_eq_false]
    intro c hc
    rcases List.mem_map.mp hc with ⟨v, hvmem, hveq⟩
    rw [← hveq]
    simp [(charsetChar_props v (hdcs v hvmem)).2.1]
  have hcond : (checkHrp hrp &&
      !(hasLower (hrp ++ mapped) && hasUpper (hrp ++ mapped))) = true := by
    rw [hh]
    have : hasUpper (hrp ++ mapped) = false := by
      rw [hasUpper, List.any_append]
      rw [hasUpper] at hup hupm
      rw [hup, hupm]
      rfl
    rw [this]
    simp
  rw [if_pos hcond]
  have hmapMeq : mapped.mapM dataCharValue = some (data ++ cs) := by
    rw [hmapped]
    exact mapM_dataCharValue_map (data ++ cs) hdcs
  have hlcs : cs.length = 6 := by rw [hcs]; rfl
  have hlen6 : ((data ++ cs).length < 6) = False := by
    simp [List.length_append, hlcs]
  have hpm : polymod (hrpExpand hrp ++ (data ++ cs)) = variantConst variant := by
    rw [← List.append_assoc]
    exact polymod_append_createChecksum hrp data variant
      (by
        intro v hv
        rcases List.mem_append.mp hv with h | h
        · exact hrpExpand_mem_lt (checkHrp_bounds hh) v h
        · exact hd v h)
  have htake6 : (data ++ cs).take ((data ++ cs).length - 6) = data := by
    have hlendiff : (data ++ cs).length - 6 = data.length := by
      simp [List.length_append, hlcs]
    rw [hlendiff, List.take_left]
  simp only [hmapMeq, hlen6, if_false, hrpLower_eq_self hup, hpm,
    variantFromRemainder_const, htake6]

theorem convertBits.emit_out_lt (f tw : Nat) :
    ∀ (acc bits : Nat) (out : List Nat), (∀ v ∈ out, v < 2 ^ tw) →
      ∀ v ∈ (convertBits.emit f tw acc bits out).2, v < 2 ^ tw := by
  induction f with
  | zero => intro acc bits out h; simpa [convertBits.emit] using h
  | succ g ih =>
    intro acc bits out h
    by_cases hc : tw ≤ bits
    · simp only [convertBits.emit, hc, if_true]
      refine ih acc (bits - tw) _ ?_
      intro v hv
      rcases List.mem_append.mp hv with hv | hv
      · exact h v hv
      · rw [List.mem_singleton] at hv
        subst hv
        calc (acc >>> (bits - tw)) &&& (2 ^ tw - 1) ≤ 2 ^ tw - 1 := Nat.and_le_right
          _ < 2 ^ tw := by have : 0 < 2 ^ tw := Nat.pos_pow_of_pos tw (by omega); omega
    · simpa [convertBits.emit, hc] using h

theorem convertBits.go_out_lt (frm tw : Nat) (pad : Bool) :
    ∀ (l : List Nat) (acc bits : Nat) (out : List Nat),
      convertBits.go frm tw pad l acc bits = some out → ∀ v ∈ out, v < 2 ^ tw := by
  intro l
  induction l with
  | nil =>
    intro acc bits out h v hv
    unfold convertBits.go at h
    split at h
    · split at h <;> (rw [Option.some_inj] at h; subst h)
      · rw [List.mem_singleton] at hv
        subst hv
        calc (acc <<< (tw - bits)) &&& (2 ^ tw - 1) ≤ 2 ^ tw - 1 := Nat.and_le_right
          _ < 2 ^ tw := by have : 0 < 2 ^ tw := Nat.pos_pow_of_pos tw (by omega); omega
      · simp at hv
    · split at h
      · cases h
      · rw [Option.some_inj] at h; subst h; simp at hv
  | cons w rest ih =>
    intro acc bits out h v hv
    unfold convertBits.go at h
    split at h
    · cases h
    · simp only [Option.map_eq_some'] at h
      obtain ⟨tail, htail, hout⟩ := h
      subst hout
      rcases List.mem_append.mp hv with hv | hv
      · exact convertBits.emit_out_lt (bits + frm) tw _ (bits + frm) [] (by simp) v hv
      · exact ih _ _ tail htail v hv

/-! ### The `VerifyingKey` of synthesizer/snark -/

/-- `"verifier"` (parse.rs line 18), as ASCII codes. -/
def verifierHrp : List Nat := [118, 101, 114, 105, 102, 105, 101, 114]

/-- Modelled from the spec: the `VerifyingKey` itself (synthesizer/snark's
`VerifyingKey<N>` and its `ToBytes`/`FromBytes` are not under `src/`).
Spec §3: "VerifyingKey byte length is a deterministic function of
CircuitInfo shape"; §6: "keys and proofs serialize as fixed-order,
length-prefixed sequences of fixed-width integers and field/group
elements, little-endian.  CircuitInfo encodes its six counters as
fixed-width unsigned 64-bit integers in the fixed order given in §3."
A group element (commitment) is a `W`-byte little-endian value. -/
structure SnarkVerifyingKey (W : Nat) where
  info : CircuitInfo
  commitments : List (Fin (2 ^ (8 * W)))
  deriving DecidableEq

/-- Modelled from the spec: `VerifyingKey::to_bytes_le` — the six `u64`
counters in fixed order, then the length-prefixed commitments. -/
def vkToBytesLe (W : Nat) (vk : SnarkVerifyingKey W) : List Nat :=
  leBytesOfNat 8 vk.info.num_public_inputs ++
    leBytesOfNat 8 vk.info.num_variables ++
    leBytesOfNat 8 vk.info.num_constraints ++
    leBytesOfNat 8 vk.info.num_non_zero_a ++
    leBytesOfNat 8 vk.info.num_non_zero_b ++
    leBytesOfNat 8 vk.info.num_non_zero_c ++
    leBytesOfNat 8 vk.commitments.length ++
    vk.commitments.flatMap writeG

/-- Modelled from the spec: `VerifyingKey::read_le`. -/
def vkReadLe (W : Nat) (s : List Nat) : Option (SnarkVerifyingKey W × List Nat) := do
  let (b1, s1) ← readBytes 8 s
  let (b2, s2) ← readBytes 8 s1
  let (b3, s3) ← readBytes 8 s2
  let (b4, s4) ← readBytes 8 s3
  let (b5, s5) ← readBytes 8 s4
  let (b6, s6) ← readBytes 8 s5
  let (bn, s7) ← readBytes 8 s6
  let (commitments, s8) ← readGs W (natOfLeBytes bn) s7
  some (⟨⟨natOfLeBytes b1, natOfLeBytes b2, natOfLeBytes b3,
          natOfLeBytes b4, natOfLeBytes b5, natOfLeBytes b6⟩, commitments⟩, s8)

/-- The validity assumptions of claim C6's "valid verifying key": the six
counters and the commitment count fit `u64`. -/
def vkValid (W : Nat) (vk : SnarkVerifyingKey W) : Prop :=
  vk.info.num_public_inputs < 2 ^ 64 ∧ vk.info.num_variables < 2 ^ 64 ∧
  vk.info.num_constraints < 2 ^ 64 ∧ vk.info.num_non_zero_a < 2 ^ 64 ∧
  vk.info.num_non_zero_b < 2 ^ 64 ∧ vk.info.num_non_zero_c < 2 ^ 64 ∧
  vk.commitments.length < 2 ^ 64

/-- `Display for VerifyingKey` (parse.rs lines 60-71): bytes, base32,
bech32m with hrp `"verifier"`. -/
def vkDisplay (W : Nat) (vk : SnarkVerifyingKey W) : Option (List Nat) := do
  let b32 ← toBase32 (vkToBytesLe W vk)
  bech32Encode verifierHrp b32 .bech32m

/-- `FromStr for VerifyingKey` (parse.rs lines 35-52): bech32 decode,
reject a wrong prefix / an empty data payload / a non-bech32m variant,
then `from_base32` and `read_le`. -/
def vkFromStr (W : Nat) (s : List Nat) : Option (SnarkVerifyingKey W) :=
  match bech32Decode s with
  | none => none
  | some (hrp, dataPart, variant) =>
    if hrp ≠ verifierHrp then none
    else if dataPart.isEmpty then none
    else if variant ≠ .bech32m then none
    else
      match fromBase32 dataPart with
      | none => none
      | some bytes => (vkReadLe W bytes).map Prod.fst

theorem readBytes_leBytes8 (n : Nat) (rest : List Nat) :
    readBytes 8 (leBytesOfNat 8 n ++ rest) = some (leBytesOfNat 8 n, rest) := by
  have := readBytes_append (leBytesOfNat 8 n) rest
  rwa [leBytesOfNat_length] at this

theorem leBytesOfNat_mem_lt (w n : Nat) : ∀ b ∈ leBytesOfNat w n, b < 256 := by
  induction w generalizing n with
  | zero => intro b hb; simp [leBytesOfNat] at hb
  | succ k ih =>
    intro b hb
    simp only [leBytesOfNat, List.mem_cons] at hb
    rcases hb with h | h
    · subst h; exact Nat.mod_lt _ (by omega)
    · exact ih _ b h

theorem vkToBytesLe_mem_lt (W : Nat) (vk : SnarkVerifyingKey W) :
    ∀ b ∈ vkToBytesLe W vk, b < 256 := by
  intro b hb
  simp only [vkToBytesLe, List.mem_append] at hb
  rcases hb with ((((((h | h) | h) | h) | h) | h) | h) | h
  case _ => exact leBytesOfNat_mem_lt _ _ b h
  case _ => exact leBytesOfNat_mem_lt _ _ b h
  case _ => exact leBytesOfNat_mem_lt _ _ b h
  case _ => exact leBytesOfNat_mem_lt _ _ b h
  case _ => exact leBytesOfNat_mem_lt _ _ b h
  case _ => exact leBytesOfNat_mem_lt _ _ b h
  case _ => exact leBytesOfNat_mem_lt _ _ b h
  case _ =>
    obtain ⟨g, _, hg⟩ := List.mem_flatMap.mp h
    exact leBytesOfNat_mem_lt _ _ b hg

theorem vkToBytesLe_ne_nil (W : Nat) (vk : SnarkVerifyingKey W) :
    vkToBytesLe W vk ≠ [] := by
  simp [vkToBytesLe, leBytesOfNat]

theorem vkReadLe_write (W : Nat) (vk : SnarkVerifyingKey W) (rest : List Nat)
    (hv : vkValid W vk) :
    vkReadLe W (vkToBytesLe W vk ++ rest) = some (vk, rest) := by
  obtain ⟨h1, h2, h3, h4, h5, h6, h7⟩ := hv
  have hpow : (2 : Nat) ^ 64 = 2 ^ (8 * 8) := by norm_num
  rw [hpow] at h1 h2 h3 h4 h5 h6 h7
  unfold vkReadLe vkToBytesLe
  simp only [List.append_assoc]
  rw [readBytes_leBytes8]
  simp only [Option.bind_eq_bind, Option.some_bind]
  rw [readBytes_leBytes8]
  simp only [Option.some_bind]
  rw [readBytes_leBytes8]
  simp only [Option.some_bind]
  rw [readBytes_leBytes8]
  simp only [Option.some_bind]
  rw [readBytes_leBytes8]
  simp only [Option.some_bind]
  rw [readBytes_leBytes8]
  simp only [Option.some_bind]
  rw [readBytes_leBytes8]
  simp only [Option.some_bind]
  rw [natOfLeBytes_leBytesOfNat_of_lt h7, readGs_write]
  simp only [Option.some_bind]
  rw [natOfLeBytes_leBytesOfNat_of_lt h1, natOfLeBytes_leBytesOfNat_of_lt h2,
    natOfLeBytes_leBytesOfNat_of_lt h3, natOfLeBytes_leBytesOfNat_of_lt h4,
    natOfLeBytes_leBytesOfNat_of_lt h5, natOfLeBytes_leBytesOfNat_of_lt h6]

theorem toBase32_fromBase32 (bytes : List Nat) (hb : ∀ b ∈ bytes, b < 256) :
    ∃ u5s, toBase32 bytes = some u5s ∧ fromBase32 u5s = some bytes ∧
      ∀ v ∈ u5s, v < 32 := by
  have h := convertBits_roundtrip_aux bytes.length bytes le_rfl hb
  rw [Option.bind_eq_some] at h
  obtain ⟨u5s, h1, h2⟩ := h
  refine ⟨u5s, h1, h2, ?_⟩
  have := convertBits.go_out_lt 8 5 true bytes 0 0 u5s h1
  simpa using this

/-- C6: for every valid verifying key `vk` (counters and commitment count
fit `u64`), decoding the encoding of `vk` returns `vk` in both forms: the
canonical little-endian byte form (`read_le ∘ to_bytes_le`, consuming the
whole stream) and the bech32m text form (`FromStr ∘ Display`). -/
theorem c6_verifying_key_roundtrip (W : Nat) (vk : SnarkVerifyingKey W)
    (hv : vkValid W vk) :
    vkReadLe W (vkToBytesLe W vk) = some (vk, []) ∧
    ∃ s, vkDisplay W vk = some s ∧ vkFromStr W s = some vk := by
  have hread : vkReadLe W (vkToBytesLe W vk) = some (vk, []) := by
    have := vkReadLe_write W vk [] hv
    rwa [List.append_nil] at this
  refine ⟨hread, ?_⟩
  obtain ⟨u5s, ht, hf, hlt⟩ := toBase32_fromBase32 _ (vkToBytesLe_mem_lt W vk)
  have hne : u5s ≠ [] := by
    intro h0
    subst h0
    have hnil : fromBase32 [] = some [] := by decide
    rw [hnil, Option.some_inj] at hf
    exact vkToBytesLe_ne_nil W vk hf.symm
  have hchk : checkHrp verifierHrp = true := by decide
  have hupp : hasUpper verifierHrp = false := by decide
  have hsep : SEP ∉ verifierHrp := by decide
  have henc : ∃ s, bech32Encode verifierHrp u5s .bech32m = some s := by
    unfold bech32Encode
    rw [if_pos hchk]
    exact ⟨_, rfl⟩
  obtain ⟨s, hs⟩ := henc
  refine ⟨s, ?_, ?_⟩
  · unfold vkDisplay
    rw [ht]
    simpa using hs
  · have hdec := bech32Decode_bech32Encode verifierHrp u5s .bech32m hchk hupp hsep hlt s hs
    have hie : u5s.isEmpty = false := by
      cases u5s with
      | nil => exact absurd rfl hne
      | cons a t => rfl
    unfold vkFromStr
    rw [hdec]
    simp only [ne_eq, not_true_eq_false, if_false, hie, Bool.false_eq_true, hf, hread,
      Option.map_some']

def c6vk : SnarkVerifyingKey 1 := ⟨⟨1, 2, 3, 4, 5, 6⟩, [⟨7, by norm_num⟩]⟩

theorem c6_verifying_key_roundtrip_witness :
    vkValid 1 c6vk ∧
    (vkReadLe 1 (vkToBytesLe 1 c6vk) = some (c6vk, []) ∧
      ∃ s, vkDisplay 1 c6vk = some s ∧ vkFromStr 1 s = some c6vk) :=
  ⟨by simp [vkValid, c6vk], c6_verifying_key_roundtrip 1 c6vk (by simp [vkValid, c6vk])⟩

/-- C7: `VerifyingKey::from_str` returns an error for every undecodable
string, and for every string whose bech32 hrp is not `"verifier"`, whose
decoded data payload is empty, or whose variant is not bech32m. -/
theorem c7_from_str_rejects (W : Nat) (s : List Nat) :
    (bech32Decode s = none → vkFromStr W s = none) ∧
    ∀ hrp dataPart variant, bech32Decode s = some (hrp, dataPart, variant) →
      (hrp ≠ verifierHrp ∨ dataPart = [] ∨ variant ≠ .bech32m) →
      vkFromStr W s = none := by
  constructor
  · intro h
    unfold vkFromStr
    rw [h]
  · intro hrp dataPart variant hdec hbad
    simp only [vkFromStr, hdec]
    by_cases hh : hrp ≠ verifierHrp
    · rw [if_pos hh]
    · rw [if_neg hh]
      rcases hbad with h | h | h
      · exact absurd h hh
      · subst h
        rfl
      · by_cases he : dataPart.isEmpty = true
        · rw [if_pos he]
        · rw [if_neg he, if_pos h]

def c7BadStr : List Nat := [97, 49] ++ (createChecksum [97] [] .bech32m).map charsetChar

theorem c7_from_str_rejects_witness : vkFromStr 1 c7BadStr = none :=
  (c7_from_str_rejects 1 c7BadStr).2 [97] [] Bech32Variant.bech32m (by decide)
    (Or.inl (by decide))
